import Mathlib

/-!
# dirconv: a verification development for `kadai1/ebiiim/cmd/dirconv/cli.go`

The Go program walks a directory, selects the files whose lower-cased extension
equals `SrcExt`, and converts each of them in a goroutine of its own, appending
one `Result` per file to a shared slice.

The embedding below follows `cli.go` function by function (`formatExt`,
`NewCli`, `traverseImageFiles`, `DirConv`).  The standard-library functions the
program calls (`strings.ToLower`, `strings.HasPrefix`, `filepath.Ext`,
`filepath.Clean`, `filepath.Join`, `filepath.Rel`, `filepath.Walk`,
`flag.FlagSet.Parse`, `utf8.EncodeRune`, `utf8.DecodeRuneInString`) are modelled
after their Go sources for a Unix target.  Three things are parameters of the
model:

* `lower : Nat → Nat`, the rune table behind `unicode.ToLower`;
* `convert : GoString → GoString → Option GoError`, the method
  `conv.ImgConv.Convert` applied to `SrcPath` and `TgtPath`;
* `sched : List Nat`, the order in which the scheduler lets the goroutines of
  `DirConv` take their steps.

The file system found at `cli.Dir` is a value of type `Node`.
-/

namespace Dirconv

/-! ## Go strings and UTF-8 -/

/-- A Go string is a sequence of bytes: `len` counts bytes and slicing cuts
between bytes. -/
abbrev GoString := List Nat

/-- The constant `utf8.RuneError`. -/
def RuneError : Nat := 0xFFFD

/-- The function `utf8.EncodeRune`: surrogates and values above `MaxRune` are
written as `RuneError`. -/
def encodeRune (r : Nat) : GoString :=
  if r ≤ 0x7F then [r]
  else if r ≤ 0x7FF then [0xC0 + r / 64, 0x80 + r % 64]
  else if 0x10FFFF < r ∨ (0xD800 ≤ r ∧ r ≤ 0xDFFF) then [0xEF, 0xBF, 0xBD]
  else if r ≤ 0xFFFF then [0xE0 + r / 4096, 0x80 + r / 64 % 64, 0x80 + r % 64]
  else [0xF0 + r / 262144, 0x80 + r / 4096 % 64, 0x80 + r / 64 % 64, 0x80 + r % 64]

/-- The bytes of a string literal (its UTF-8 encoding). -/
def gs (s : String) : GoString := s.toList.flatMap (fun c => encodeRune c.toNat)

/-- The function `utf8.DecodeRuneInString`: the first rune of `s` and its width
in bytes.  A byte that does not start a well-formed sequence decodes to
`RuneError` with width 1. -/
def decodeRune : GoString → Nat × Nat
  | [] => (RuneError, 0)
  | s0 :: t =>
    if s0 < 0x80 then (s0, 1)
    else if s0 < 0xC2 then (RuneError, 1)
    else if s0 < 0xE0 then
      match t with
      | s1 :: _ =>
        if 0x80 ≤ s1 ∧ s1 ≤ 0xBF then (s0 % 32 * 64 + s1 % 64, 2) else (RuneError, 1)
      | [] => (RuneError, 1)
    else if s0 < 0xF0 then
      match t with
      | s1 :: s2 :: _ =>
        if (if s0 = 0xE0 then 0xA0 else 0x80) ≤ s1 ∧ s1 ≤ (if s0 = 0xED then 0x9F else 0xBF) then
          if 0x80 ≤ s2 ∧ s2 ≤ 0xBF then (s0 % 16 * 4096 + s1 % 64 * 64 + s2 % 64, 3)
          else (RuneError, 1)
        else (RuneError, 1)
      | _ => (RuneError, 1)
    else if s0 < 0xF5 then
      match t with
      | s1 :: s2 :: s3 :: _ =>
        if (if s0 = 0xF0 then 0x90 else 0x80) ≤ s1 ∧ s1 ≤ (if s0 = 0xF4 then 0x8F else 0xBF) then
          if 0x80 ≤ s2 ∧ s2 ≤ 0xBF then
            if 0x80 ≤ s3 ∧ s3 ≤ 0xBF then
              (s0 % 8 * 262144 + s1 % 64 * 4096 + s2 % 64 * 64 + s3 % 64, 4)
            else (RuneError, 1)
          else (RuneError, 1)
        else (RuneError, 1)
      | _ => (RuneError, 1)
    else (RuneError, 1)

/-- The loops of `strings.Map`, with `n` bounding the number of runes still to
read: every rune of `s` is decoded, mapped and written with `WriteRune`. -/
def mapRunes (f : Nat → Nat) : Nat → GoString → GoString
  | 0, _ => []
  | _ + 1, [] => []
  | n + 1, b :: t =>
    encodeRune (f (decodeRune (b :: t)).1) ++
      mapRunes f n ((b :: t).drop (decodeRune (b :: t)).2)

/-- The function `strings.Map` for a mapping that never returns a negative
rune. -/
def Map (f : Nat → Nat) (s : GoString) : GoString := mapRunes f s.length s

/-- The ASCII branch of `strings.ToLower`: `c += 'a' - 'A'` for `'A'..'Z'`. -/
def asciiLower (c : Nat) : Nat := if 0x41 ≤ c ∧ c ≤ 0x5A then c + 0x20 else c

/-- The function `strings.ToLower`: ASCII-only strings are lower-cased byte by
byte, any other string goes through `Map(unicode.ToLower, s)`. -/
def ToLower (lower : Nat → Nat) (s : GoString) : GoString :=
  if s.all (fun c => decide (c < 0x80)) then s.map asciiLower else Map lower s

/-- The function `strings.HasPrefix`. -/
def HasPrefix (s pre : GoString) : Bool := pre.isPrefixOf s

/-- The function `strings.HasSuffix`. -/
def HasSuffix (s suf : GoString) : Bool := suf.isSuffixOf s

/-- The entries of Go's `unicode.CaseRanges` for Basic Latin, for the Latin-1
capitals, and for U+0130, U+023A and U+212A, whose lower-case forms have a
different UTF-8 length; every other rune is left as it is.  Used where a
concrete table is needed. -/
def latinToLower (r : Nat) : Nat :=
  if 0x41 ≤ r ∧ r ≤ 0x5A then r + 32
  else if 0xC0 ≤ r ∧ r ≤ 0xD6 then r + 32
  else if 0xD8 ≤ r ∧ r ≤ 0xDE then r + 32
  else if r = 0x130 then 0x69
  else if r = 0x23A then 0x2C65
  else if r = 0x212A then 0x6B
  else r

/-! ## `cli.go`: `formatExt` -/

/-- The function `formatExt`: the value `*ext` after the call. -/
def formatExt (lower : Nat → Nat) (ext : GoString) : GoString :=
  if !HasPrefix (ToLower lower ext) (gs ".") then gs "." ++ ToLower lower ext
  else ToLower lower ext

/-! ## Errors and panics -/

/-- The Go `error` values that occur in a run. -/
inductive GoError where
  /-- The value `filepath.SkipDir`. -/
  | SkipDir : GoError
  /-- The error of `os.Lstat` on a path. -/
  | lstat (path : GoString) : GoError
  /-- The error of reading the names of a directory. -/
  | readdir (path : GoString) : GoError
  /-- The error of `filepath.Rel`: the target cannot be made relative to the base. -/
  | rel (basepath targpath : GoString) : GoError
  /-- An error returned by the converter. -/
  | convert (code : Nat) : GoError
  deriving DecidableEq

/-- The ways a run stops without returning. -/
inductive Panic where
  /-- A method call through a nil interface value. -/
  | nilDereference : Panic
  /-- A slice expression whose bounds are out of range. -/
  | sliceBounds : Panic
  /-- An index expression out of range. -/
  | indexRange : Panic
  /-- The statement `panic(err)`. -/
  | err (e : GoError) : Panic
  deriving DecidableEq

deriving instance DecidableEq for Except

/-! ## `path/filepath` on Unix -/

/-- The scan of `filepath.Ext` from the end of the path: `rev` holds the bytes
not yet looked at, last byte first, and `acc` the bytes already passed. -/
def extFrom : List Nat → GoString → GoString
  | [], _ => []
  | c :: rev, acc =>
    if c = 0x2F then [] else if c = 0x2E then c :: acc else extFrom rev (c :: acc)

/-- The function `filepath.Ext`: the suffix that starts at the last dot of the
last element of the path, or the empty string. -/
def Ext (path : GoString) : GoString := extFrom path.reverse []

/-- The elements of a path between its separators. -/
def splitSep : GoString → List GoString
  | [] => [[]]
  | c :: t =>
    if c = 0x2F then [] :: splitSep t
    else match splitSep t with
      | [] => [[c]]
      | w :: ws => (c :: w) :: ws

/-- One round of the loop of `filepath.Clean` on the path element `e`.  The
state is the list of elements written so far and the number of leading `..`
elements, below which `..` cannot remove anything (the index `dotdot`). -/
def cleanStep (rooted : Bool) (st : List GoString × Nat) (e : GoString) : List GoString × Nat :=
  if e = [] ∨ e = gs "." then st
  else if e = gs ".." then
    if st.2 < st.1.length then (st.1.dropLast, st.2)
    else if !rooted then (st.1 ++ [e], st.1.length + 1)
    else st
  else (st.1 ++ [e], st.2)

/-- The function `filepath.Clean`. -/
def Clean (path : GoString) : GoString :=
  if path = [] then gs "."
  else if path.head? = some 0x2F then
    gs "/" ++ (gs "/").intercalate ((splitSep path).foldl (cleanStep true) ([], 0)).1
  else if ((splitSep path).foldl (cleanStep false) ([], 0)).1 = [] then gs "."
  else (gs "/").intercalate ((splitSep path).foldl (cleanStep false) ([], 0)).1

/-- The function `filepath.Join`: empty leading elements are skipped and the
rest is joined with separators and cleaned. -/
def Join (elem : List GoString) : GoString :=
  match elem.dropWhile (fun e => decide (e = [])) with
  | [] => []
  | es => Clean ((gs "/").intercalate es)

/-- The loop of `filepath.Rel` that skips the leading elements `base` and
`targ` have in common.  It returns what is left of both and whether it stopped
at a `..` element of `base`. -/
def relLoop : Nat → GoString → GoString → GoString × GoString × Bool
  | 0, b, t => (b, t, false)
  | n + 1, b, t =>
    if b = [] ∨ t = [] then (b, t, false)
    else if t.takeWhile (fun c => decide (c ≠ 0x2F)) ≠ b.takeWhile (fun c => decide (c ≠ 0x2F)) then
      (b, t, decide (b.takeWhile (fun c => decide (c ≠ 0x2F)) = gs ".."))
    else
      relLoop n ((b.dropWhile (fun c => decide (c ≠ 0x2F))).drop 1)
        ((t.dropWhile (fun c => decide (c ≠ 0x2F))).drop 1)

/-- The tail of `filepath.Rel` once the common elements are skipped. -/
def relFinish (basepath targpath : GoString) : GoString × GoString × Bool → GoString × Option GoError
  | (_, _, true) => ([], some (.rel basepath targpath))
  | ([], t, false) => (t, none)
  | (b, t, false) =>
    (gs ".." ++ (List.replicate (b.count 0x2F) (gs "/..")).flatten ++
      (if t = [] then [] else gs "/" ++ t), none)

/-- The function `filepath.Rel`, as the pair of its two results. -/
def Rel (basepath targpath : GoString) : GoString × Option GoError :=
  if Clean targpath = Clean basepath then (gs ".", none)
  else if ((if Clean basepath = gs "." then [] else Clean basepath).head? = some 0x2F) ≠
      ((Clean targpath).head? = some 0x2F) then
    ([], some (.rel basepath targpath))
  else
    relFinish basepath targpath
      (relLoop ((Clean basepath).length + 1)
        (if Clean basepath = gs "." then [] else Clean basepath) (Clean targpath))

/-! ## The file system and `filepath.Walk` -/

/-- The part of `os.FileInfo` the program looks at. -/
structure FileInfo where
  /-- The method `IsDir`. -/
  IsDir : Bool
  deriving DecidableEq

/-- What is found at a path. -/
inductive Node where
  /-- Anything `os.Lstat` reports as not a directory. -/
  | file : Node
  /-- A directory with its entries in the order the directory read returns them. -/
  | dir (entries : List (GoString × Node)) : Node
  /-- A directory whose entries cannot be read. -/
  | dirNoRead : Node
  /-- A path on which `os.Lstat` fails, such as a path that does not exist. -/
  | noStat : Node

/-- The type `filepath.WalkFunc`, for a function that updates captured
variables of type `σ` and may panic. -/
abbrev WalkFunc (σ : Type) :=
  σ → GoString → Option FileInfo → Option GoError → Except Panic (σ × Option GoError)

mutual
/-- The function `walk` of `path/filepath`, together with the branch of its
caller for a path on which `Lstat` failed. -/
def walk {σ : Type} (fn : WalkFunc σ) (path : GoString) : Node → σ → Except Panic (σ × Option GoError)
  | .noStat, s => fn s path none (some (.lstat path))
  | .file, s => fn s path (some ⟨false⟩) none
  | .dirNoRead, s => fn s path (some ⟨true⟩) (some (.readdir path))
  | .dir entries, s =>
    match fn s path (some ⟨true⟩) none with
    | .error p => .error p
    | .ok (s1, some e) => .ok (s1, some e)
    | .ok (s1, none) => walkNames fn path entries s1
/-- The loop of `walk` over the names of a directory. -/
def walkNames {σ : Type} (fn : WalkFunc σ) (path : GoString) :
    List (GoString × Node) → σ → Except Panic (σ × Option GoError)
  | [], s => .ok (s, none)
  | (name, child) :: rest, s =>
    match walk fn (Join [path, name]) child s with
    | .error p => .error p
    | .ok (s1, none) => walkNames fn path rest s1
    | .ok (s1, some e) =>
      match child with
      | .file => .ok (s1, some e)
      | _ => if e = .SkipDir then walkNames fn path rest s1 else .ok (s1, some e)
end

/-- The function `filepath.Walk`. -/
def Walk {σ : Type} (fn : WalkFunc σ) (root : GoString) (fs : Node) (s : σ) :
    Except Panic (σ × Option GoError) :=
  match walk fn root fs s with
  | .error p => .error p
  | .ok (s1, some .SkipDir) => .ok (s1, none)
  | .ok r => .ok r

/-! ## `cli.go`: `Cli`, `Result`, `traverseImageFiles` -/

/-- The struct `Cli`. -/
structure Cli where
  /-- Directory name to traverse. -/
  Dir : GoString
  /-- Source extension. -/
  SrcExt : GoString
  /-- Target extension. -/
  TgtExt : GoString
  deriving DecidableEq

/-- The struct `Result`. -/
structure Result where
  /-- The position of the file in the list of matched files. -/
  Index : Nat
  /-- Relative path from the directory passed to the command. -/
  RelPath : GoString
  /-- True if the conversion returned no error. -/
  IsOk : Bool
  deriving DecidableEq

/-- The function literal passed to `filepath.Walk` in `traverseImageFiles`; the
captured variable is `files`.  The parameter `err` is shadowed by the result of
`filepath.Rel`, and `info.IsDir()` is called whether or not `info` is nil. -/
def traverseFn (lower : Nat → Nat) (cli : Cli) : WalkFunc (List GoString) :=
  fun files path info _ =>
    match info with
    | none => .error .nilDereference
    | some fi =>
      if !fi.IsDir && (Rel cli.Dir path).2.isNone &&
          decide (ToLower lower (Ext (Rel cli.Dir path).1) = cli.SrcExt) then
        .ok (files ++ [(Rel cli.Dir path).1], none)
      else .ok (files, none)

/-- The method `traverseImageFiles`, on the file system `fs` found at `cli.Dir`:
its results `files` and `err`, or a panic. -/
def traverseImageFiles (lower : Nat → Nat) (cli : Cli) (fs : Node) :
    Except Panic (List GoString × Option GoError) :=
  Walk (traverseFn lower cli) cli.Dir fs []

/-! ## `cli.go`: `DirConv` -/

/-- How a call ends: it returns, the process exits through `os.Exit`, or the
process dies of a panic. -/
inductive Outcome (α : Type) where
  /-- The call returns a value. -/
  | returned (a : α) : Outcome α
  /-- The statement `os.Exit(code)`. -/
  | exited (code : Nat) : Outcome α
  /-- A panic nobody recovers from. -/
  | panicked (p : Panic) : Outcome α
  deriving DecidableEq

/-- The string `oldFileName` of a goroutine of `DirConv`:
`fmt.Sprintf("%s/%s", cli.Dir, val)`. -/
def oldFileName (cli : Cli) (val : GoString) : GoString := cli.Dir ++ gs "/" ++ val

/-- The string `newFileName` of a goroutine of `DirConv`, where the slice
expression `oldFileName[0:len(oldFileName)-len(cli.SrcExt)]` is in range. -/
def newFileName (cli : Cli) (val : GoString) : GoString :=
  (oldFileName cli val).take ((oldFileName cli val).length - cli.SrcExt.length) ++ cli.TgtExt

/-- The body of a goroutine of `DirConv` up to the operand
`Result{Index: idx, RelPath: val, IsOk: ok}` of `append`: the slice expression
panics when its upper bound is negative; otherwise the converter is called
once, with the pair of paths that is recorded next to the result. -/
def worker (convert : GoString → GoString → Option GoError) (cli : Cli) (idx : Nat)
    (val : GoString) : Except Panic ((GoString × GoString) × Result) :=
  if cli.SrcExt.length ≤ (oldFileName cli val).length then
    .ok ((oldFileName cli val, newFileName cli val),
      ⟨idx, val, (convert (oldFileName cli val) (newFileName cli val)).isNone⟩)
  else .error .sliceBounds

/-- A slice value: the three words `ptr`, `len` and `cap` of its header.  The
backing arrays are numbered in the order of their allocation; `none` is the
nil pointer. -/
structure Slice where
  /-- The backing array. -/
  ptr : Option Nat
  /-- The number of elements. -/
  len : Nat
  /-- The length of the backing array. -/
  cap : Nat
  deriving DecidableEq

/-- The capacity `growslice` picks for a slice of capacity `oldCap` that has to
hold `newLen` elements: twice the old capacity, or `newLen` if that is more.
(The slower growth of slices of several hundred elements and the rounding to
allocation size classes, which keeps the powers of two for an element of 32
bytes such as `Result`, are left out.) -/
def growCap (oldCap newLen : Nat) : Nat :=
  if 2 * oldCap < newLen then newLen else 2 * oldCap

/-- Where a goroutine stands.  No lock protects the statement
`results = append(results, r)`, which the compiler turns into a read of the
header of `results`, a call of `growslice` when the array is full, the write of
the new header, and only then the write of the element `r` into its slot. -/
inductive Phase (ρ : Type) where
  /-- Started by the `go` statement; the body has not run. -/
  | ready : Phase ρ
  /-- The body has run up to the operands of `append`. -/
  | computed (r : ρ) : Phase ρ
  /-- The goroutine has read the header of `results` and holds what it saw. -/
  | loaded (seen : Slice) (r : ρ) : Phase ρ
  /-- The goroutine has written the new header of `results`; the element `r`
  is still to be written into slot `slot` of the array `array`. -/
  | stored (array : Option Nat) (slot : Nat) (r : ρ) : Phase ρ
  /-- The goroutine has written its element and called `wg.Done`. -/
  | done : Phase ρ
  deriving DecidableEq

/-- The state of the goroutines of one run: the shared variable `results`, the
backing arrays allocated so far, the converter calls made so far, the phase
of every goroutine, and the panic that killed the process, if any. -/
structure Pool (κ ρ : Type) where
  /-- The header of the shared variable `results`. -/
  results : Slice
  /-- The backing arrays, in the order of their allocation. -/
  arrays : List (List ρ)
  /-- The calls of the converter, in the order they were made. -/
  calls : List κ
  /-- The phase of goroutine `i`, for every `i`. -/
  phases : List (Phase ρ)
  /-- The panic that stopped the process. -/
  crashed : Option Panic
  deriving DecidableEq

/-- The elements of a slice: the first `len` slots of its array. -/
def Slice.elems {ρ : Type} (s : Slice) (arrays : List (List ρ)) : List ρ :=
  match s.ptr with
  | none => []
  | some a => (arrays.getD a []).take s.len

/-- The array `growslice` returns for the slice `seen` and one more element: a
new array of the grown capacity, the elements of `seen` copied to its front,
the other slots holding the zero value. -/
def grown {ρ : Type} (zero : ρ) (arrays : List (List ρ)) (seen : Slice) : List ρ :=
  seen.elems arrays ++ List.replicate (growCap seen.cap (seen.len + 1) - seen.len) zero

/-- The elements of the shared slice `results`, which `DirConv` returns. -/
def Pool.elems {κ ρ : Type} (st : Pool κ ρ) : List ρ :=
  st.results.elems st.arrays

/-- The scheduler lets goroutine `i` take its next step.  In order, the steps
of a goroutine are: the body up to the operands of `append` (a panic of the
slice expression kills the process); the read of the header of `results`; the
write of the new header, after `growslice` has copied the elements to a new
array if the length read equals the capacity read; the write of the element
into its slot, in whatever array the goroutine took for it.  Between the write
of the header and the write of the element, the slot holds what the array held
before: the zero value in a new array.

The three words of a header are read together and written together, and so are
the words of an element; every run here is a run of the program.  The runs of
the program in which a goroutine reads a header while another one writes it
are not among the runs here; they differ from them in the slice returned and
in that the process can die of a memory fault, not in the calls of the
converter.  The write of an element through a nil pointer is a panic; it does not
arise (`Pool.Sane`).  A step of a goroutine that does not exist or is done, or
any step after a panic, changes nothing.  The lines the goroutine prints are
left out. -/
def step {κ ρ : Type} (zero : ρ) (work : Nat → Except Panic (κ × ρ)) (st : Pool κ ρ) (i : Nat) :
    Pool κ ρ :=
  if st.crashed.isSome then st
  else
    match st.phases.get? i with
    | none => st
    | some .ready =>
      match work i with
      | .error p => { st with crashed := some p }
      | .ok (k, r) => { st with calls := st.calls ++ [k], phases := st.phases.set i (.computed r) }
    | some (.computed r) => { st with phases := st.phases.set i (.loaded st.results r) }
    | some (.loaded seen r) =>
      if seen.len + 1 ≤ seen.cap then
        { st with
          results := ⟨seen.ptr, seen.len + 1, seen.cap⟩,
          phases := st.phases.set i (.stored seen.ptr seen.len r) }
      else
        { st with
          results := ⟨some st.arrays.length, seen.len + 1, growCap seen.cap (seen.len + 1)⟩,
          arrays := st.arrays ++ [grown zero st.arrays seen],
          phases := st.phases.set i (.stored (some st.arrays.length) seen.len r) }
    | some (.stored none _ _) => { st with crashed := some .nilDereference }
    | some (.stored (some a) slot r) =>
      { st with
        arrays := st.arrays.set a ((st.arrays.getD a []).set slot r),
        phases := st.phases.set i .done }
    | some .done => st

/-- Four steps of goroutine `i`, which take it from any phase to its end. -/
def runToEnd {κ ρ : Type} (zero : ρ) (work : Nat → Except Panic (κ × ρ)) (st : Pool κ ρ)
    (i : Nat) : Pool κ ρ :=
  step zero work (step zero work (step zero work (step zero work st i) i) i) i

/-- The call `wg.Wait()` returns once every goroutine is done: after the steps
of the schedule, every goroutine that is not done yet runs to its end, in the
order of the indices. -/
def finish {κ ρ : Type} (zero : ρ) (work : Nat → Except Panic (κ × ρ)) (n : Nat)
    (st : Pool κ ρ) : Pool κ ρ :=
  (List.range n).foldl (runToEnd zero work) st

/-- The `n` goroutines of a run under the schedule `sched`, the list of the
goroutines that take a step, in order.  The variable `results` starts as the
nil slice. -/
def runPool {κ ρ : Type} (zero : ρ) (work : Nat → Except Panic (κ × ρ)) (n : Nat)
    (sched : List Nat) : Pool κ ρ :=
  finish zero work n
    (sched.foldl (step zero work) ⟨⟨none, 0, 0⟩, [], [], List.replicate n .ready, none⟩)

/-- The loop `for i, v := range files` of `DirConv` with its goroutines, up to
the return of `wg.Wait()`: goroutine `i` runs the body for `idx = i` and
`val = files[i]`.  The zero value of `Result` fills a new array. -/
def goroutines (convert : GoString → GoString → Option GoError) (cli : Cli)
    (files : List GoString) (sched : List Nat) : Pool (GoString × GoString) Result :=
  runPool ⟨0, [], false⟩ (fun i => worker convert cli i (files.getD i [])) files.length sched

/-- A run of `DirConv`: the calls of the converter and how `DirConv` ends. -/
structure Run where
  /-- The pairs `(SrcPath, TgtPath)` the converter was called with. -/
  calls : List (GoString × GoString)
  /-- The returned slice of results, an exit, or a panic. -/
  outcome : Outcome (List Result)
  deriving DecidableEq

/-- The method `DirConv`, on the file system `fs` found at `cli.Dir`, with the
converter `convert` and the goroutine schedule `sched`: the usage text and
`os.Exit(0)` for an empty `Dir`, `panic(err)` for an error of
`traverseImageFiles`, and otherwise one goroutine per file and the value of
`results` after `wg.Wait()`. -/
def DirConv (lower : Nat → Nat) (convert : GoString → GoString → Option GoError) (cli : Cli)
    (fs : Node) (sched : List Nat) : Run :=
  if cli.Dir = [] then ⟨[], .exited 0⟩
  else
    match traverseImageFiles lower cli fs with
    | .error p => ⟨[], .panicked p⟩
    | .ok (_, some e) => ⟨[], .panicked (.err e)⟩
    | .ok (files, none) =>
      ⟨(goroutines convert cli files sched).calls,
        match (goroutines convert cli files sched).crashed with
        | some p => .panicked p
        | none => .returned (goroutines convert cli files sched).elems⟩

/-! ## `cli.go`: `NewCli` -/

/-- The two string flags of the flag set of `NewCli` and the arguments left. -/
structure FlagSet where
  /-- The value of the flag `source_ext`. -/
  source_ext : GoString
  /-- The value of the flag `target_ext`. -/
  target_ext : GoString
  /-- The arguments after the flags. -/
  args : List GoString
  deriving DecidableEq

/-- The name of a flag and the value after its first `=`, if there is one; the
`=` is looked for from the second byte of the name on. -/
def splitValue : GoString → GoString × Option GoString
  | [] => ([], none)
  | c :: t =>
    if t.contains 0x3D then
      (c :: t.takeWhile (fun b => decide (b ≠ 0x3D)),
        some ((t.dropWhile (fun b => decide (b ≠ 0x3D))).drop 1))
    else (c :: t, none)

/-- The method `Set` of the flag called `name`, or nothing if the flag set has
no such flag. -/
def setFlag (f : FlagSet) (name value : GoString) : Option FlagSet :=
  if name = gs "source_ext" then some { f with source_ext := value }
  else if name = gs "target_ext" then some { f with target_ext := value }
  else none

/-- The method `FlagSet.Parse` with `flag.ExitOnError`, as the loop over
`parseOne`: the flag set after parsing, or the exit code (0 after `-h` or
`-help`, 2 after an error). -/
def Parse (f : FlagSet) : List GoString → Except Nat FlagSet
  | [] => .ok { f with args := [] }
  | s :: rest =>
    if s.length < 2 ∨ s.head? ≠ some 0x2D then .ok { f with args := s :: rest }
    else if s = gs "--" then .ok { f with args := rest }
    else if (if s.get? 1 = some 0x2D then s.drop 2 else s.drop 1) = [] ∨
        (if s.get? 1 = some 0x2D then s.drop 2 else s.drop 1).head? = some 0x2D ∨
        (if s.get? 1 = some 0x2D then s.drop 2 else s.drop 1).head? = some 0x3D then .error 2
    else
      match splitValue (if s.get? 1 = some 0x2D then s.drop 2 else s.drop 1), rest with
      | (name, some value), rest =>
        match setFlag f name value with
        | some f1 => Parse f1 rest
        | none => if name = gs "help" ∨ name = gs "h" then .error 0 else .error 2
      | (name, none), value :: rest1 =>
        match setFlag f name value with
        | some f1 => Parse f1 rest1
        | none => if name = gs "help" ∨ name = gs "h" then .error 0 else .error 2
      | (name, none), [] =>
        match setFlag f name [] with
        | some _ => .error 2
        | none => if name = gs "help" ∨ name = gs "h" then .error 0 else .error 2

/-- The function `NewCli`: the struct `*cli`. -/
def NewCli (lower : Nat → Nat) (args : List GoString) : Outcome Cli :=
  match args with
  | [] => .panicked .indexRange
  | _ :: rest =>
    match Parse ⟨gs "jpg", gs "png", []⟩ rest with
    | .error code => .exited code
    | .ok f => .returned ⟨f.args.headD [], formatExt lower f.source_ext, formatExt lower f.target_ext⟩

/-! ## Specification side: the visits of a walk and the matched files -/

/-- One call of the function passed to `filepath.Walk`: its three arguments. -/
structure Visit where
  /-- The argument `path`. -/
  path : GoString
  /-- The argument `info`; `none` is the nil interface. -/
  info : Option FileInfo
  /-- The argument `err`. -/
  err : Option GoError
  deriving DecidableEq

mutual
/-- The calls `filepath.Walk` makes on the tree `fs` at `path` when the function
it is given always returns nil: every entry, a directory before its entries. -/
def visits (path : GoString) : Node → List Visit
  | .noStat => [⟨path, none, some (.lstat path)⟩]
  | .file => [⟨path, some ⟨false⟩, none⟩]
  | .dirNoRead => [⟨path, some ⟨true⟩, some (.readdir path)⟩]
  | .dir entries => ⟨path, some ⟨true⟩, none⟩ :: visitsNames path entries
/-- The calls for the entries of the directory `path`. -/
def visitsNames (path : GoString) : List (GoString × Node) → List Visit
  | [] => []
  | (name, child) :: rest => visits (Join [path, name]) child ++ visitsNames path rest
end

/-- The function `fn` called on the visits of a list, one after the other, as
long as it does not panic. -/
def feed {σ : Type} (fn : WalkFunc σ) : List Visit → σ → Except Panic σ
  | [], s => .ok s
  | v :: vs, s =>
    match fn s v.path v.info v.err with
    | .error p => .error p
    | .ok (s1, _) => feed fn vs s1

/-- Follows the specification of the path matcher: the relative paths, in
traversal order, of the visited entries that are not directories and whose
extension, lower-cased, equals the source extension. -/
def specMatchedFiles (lower : Nat → Nat) (cli : Cli) (vs : List Visit) : List GoString :=
  (vs.filter (fun v => decide (v.info = some ⟨false⟩ ∧ (Rel cli.Dir v.path).2 = none ∧
      ToLower lower (Ext (Rel cli.Dir v.path).1) = cli.SrcExt))).map
    (fun v => (Rel cli.Dir v.path).1)

/-! ## The invariants of the goroutines -/

/-- Every call made so far is the call of one of the `n` goroutines. -/
def Pool.Sound {κ ρ : Type} (work : Nat → Except Panic (κ × ρ)) (n : Nat) (st : Pool κ ρ) : Prop :=
  st.phases.length = n ∧ ∀ k ∈ st.calls, ∃ i, i < n ∧ ∃ r, work i = .ok (k, r)

/-- Every goroutine that has left the phase `ready` got a result from `work`,
and the call that goes with it is among the calls. -/
def Pool.Started {κ ρ : Type} (work : Nat → Except Panic (κ × ρ)) (st : Pool κ ρ) : Prop :=
  ∀ i ph, st.phases[i]? = some ph → ph ≠ .ready → ∃ k r, work i = .ok (k, r) ∧ k ∈ st.calls

/-- A header whose pointer is nil has capacity 0. -/
def Slice.Sane (s : Slice) : Prop :=
  s.ptr = none → s.cap = 0

/-- The header a goroutine holds is sane, and the array it is about to write
into is not nil. -/
def Phase.Sane {ρ : Type} : Phase ρ → Prop
  | .loaded seen _ => seen.Sane
  | .stored a _ _ => a ≠ none
  | _ => True

/-- No goroutine writes through a nil pointer: the header of `results` and the
headers the goroutines hold are sane, and a panic is a panic of `work`. -/
def Pool.Sane {κ ρ : Type} (work : Nat → Except Panic (κ × ρ)) (st : Pool κ ρ) : Prop :=
  st.results.Sane ∧ (∀ ph ∈ st.phases, ph.Sane) ∧
    ∀ p, st.crashed = some p → ∃ i, i < st.phases.length ∧ work i = .error p

/-- The header of `results` fits its array: a nil slice is empty with capacity
0, and any other slice has an array of the length of its capacity that holds
at least `len` elements. -/
def Pool.Fits {κ ρ : Type} (st : Pool κ ρ) : Prop :=
  match st.results.ptr with
  | none => st.results.len = 0 ∧ st.results.cap = 0
  | some a => a < st.arrays.length ∧ (st.arrays.getD a []).length = st.results.cap ∧
      st.results.len ≤ st.results.cap

/-! ## Auxiliary definitions for the proofs about `strings.ToLower` -/

/-- The rune `utf8.EncodeRune` writes for `r`: `r` itself, or `RuneError` for a
surrogate or a value above `MaxRune`. -/
def validRune (r : Nat) : Nat :=
  if 0x10FFFF < r ∨ (0xD800 ≤ r ∧ r ≤ 0xDFFF) then RuneError else r


/-! ## Auxiliary definitions for the proofs about `filepath.Clean` and `filepath.Rel` -/

/-- A name a directory read can return: not empty, without a separator, and
neither `.` nor `..`. -/
def NormalName (n : GoString) : Prop :=
  n ≠ [] ∧ 0x2F ∉ n ∧ n ≠ gs "." ∧ n ≠ gs ".."

/-- The elements of a path joined by separators. -/
def joinSep : List GoString → GoString
  | [] => []
  | [e] => e
  | e :: e1 :: es => e ++ 0x2F :: joinSep (e1 :: es)

/-- The path `filepath.Clean` writes for a list of elements. -/
def render (rooted : Bool) (out : List GoString) : GoString :=
  if rooted then 0x2F :: joinSep out else if out = [] then gs "." else joinSep out

/-- The state of the loop of `filepath.Clean` is a number of `..` elements
followed by normal names, with no `..` at all in a rooted path. -/
def CleanState (rooted : Bool) (st : List GoString × Nat) : Prop :=
  ∃ rest, st.1 = List.replicate st.2 (gs "..") ++ rest ∧ (∀ e ∈ rest, NormalName e) ∧
    (rooted = true → st.2 = 0)

instance (n : GoString) : Decidable (NormalName n) := by
  unfold NormalName
  infer_instance

/-- The path of an entry relative to the root of the walk, from the names that
lead to it: `.` for the root, the names joined by separators below it. -/
def relOf (names : List GoString) : GoString :=
  if names = [] then gs "." else joinSep names

mutual
/-- Follows the data model of the specification (`WalkEntry`): the entries of
a tree, a directory before its entries, each with its path relative to the
root and the flag that tells a directory from a file. -/
def treeEntries (names : List GoString) : Node → List (GoString × Bool)
  | .noStat => [(relOf names, false)]
  | .file => [(relOf names, false)]
  | .dirNoRead => [(relOf names, true)]
  | .dir entries => (relOf names, true) :: treeEntriesNames names entries
/-- The entries below a directory. -/
def treeEntriesNames (names : List GoString) : List (GoString × Node) → List (GoString × Bool)
  | [] => []
  | (name, child) :: rest => treeEntries (names ++ [name]) child ++ treeEntriesNames names rest
end

mutual
/-- Every name in the tree is a name a directory read can return, and
`os.Lstat` succeeds on every entry. -/
def wellFormed : Node → Bool
  | .noStat => false
  | .file => true
  | .dirNoRead => true
  | .dir entries => wellFormedNames entries
/-- The entries of a directory are well formed. -/
def wellFormedNames : List (GoString × Node) → Bool
  | [] => true
  | (name, child) :: rest => decide (NormalName name) && wellFormed child && wellFormedNames rest
end

/-- Follows the specification of the path matcher on a tree: the relative
paths, in traversal order, of the files (not directories) whose extension,
lower-cased, equals the source extension. -/
def specMatchedTree (lower : Nat → Nat) (cli : Cli) (fs : Node) : List GoString :=
  ((treeEntries [] fs).filter
    (fun e => !e.2 && decide (ToLower lower (Ext e.1) = cli.SrcExt))).map (fun e => e.1)

/-- The path `filepath.Walk` passes for the entry reached from `dir` by the
names `names`. -/
def pathOf (dir : GoString) (names : List GoString) : GoString :=
  if names = [] then dir
  else render (decide (dir.head? = some 0x2F))
    (((splitSep dir).foldl (cleanStep (decide (dir.head? = some 0x2F))) ([], 0)).1 ++ names)

/-! ## Example inputs -/

/-- The command `imgconv d` with the default extensions. -/
def exampleCli : Cli := ⟨gs "d", gs ".jpg", gs ".png"⟩

/-- The tree `a.jpg, sub/b.jpg, sub/c.png`. -/
def exampleTree : Node :=
  .dir [(gs "a.jpg", .file), (gs "sub", .dir [(gs "b.jpg", .file), (gs "c.png", .file)])]

/-- A directory with the two files `a.jpg` and `b.jpg`. -/
def twoFiles : Node := .dir [(gs "a.jpg", .file), (gs "b.jpg", .file)]

/-- A directory with the three files `a.jpg`, `b.jpg` and `c.jpg`. -/
def threeFiles : Node := .dir [(gs "a.jpg", .file), (gs "b.jpg", .file), (gs "c.jpg", .file)]

/-- A directory with the file `a.jpg` and an entry `gone` on which `os.Lstat`
fails, such as a file removed after the directory was read. -/
def vanishedEntry : Node := .dir [(gs "a.jpg", .file), (gs "gone", .noStat)]

/-- A directory with the single file `A.JPG`. -/
def upperCaseFile : Node := .dir [(gs "A.JPG", .file)]

/-- A converter that never fails. -/
def convertOk : GoString → GoString → Option GoError := fun _ _ => none

/-- A converter that fails on the source path `d/b.jpg` only. -/
def convertFailB : GoString → GoString → Option GoError :=
  fun src _ => if src = gs "d/b.jpg" then some (.convert 1) else none

/-- The command `imgconv` with `-source_ext` three times U+2C65 and the
directory `d`: the extension is a dot and three times U+2C65, ten bytes. -/
def strokeCli : Cli := ⟨gs "d", gs ".\u2C65\u2C65\u2C65", gs ".png"⟩

/-- A directory with one file, named by a dot and three times U+023A, seven
bytes. -/
def strokeFile : Node := .dir [(gs ".\u023A\u023A\u023A", .file)]

/-! # Theorems -/

/-! ## `filepath.Walk` as a list of visits -/

theorem feed_append {σ : Type} (fn : WalkFunc σ) (vs ws : List Visit) (s : σ) :
    feed fn (vs ++ ws) s =
      match feed fn vs s with
      | .error p => .error p
      | .ok s1 => feed fn ws s1 := by
  induction vs generalizing s with
  | nil => simp [feed]
  | cons v vs ih =>
    simp only [List.cons_append, feed]
    cases h : fn s v.path v.info v.err with
    | error p => simp
    | ok r => simp [ih]

mutual
theorem walk_eq_feed {σ : Type} (fn : WalkFunc σ)
    (hnil : ∀ s p i e s1 r, fn s p i e = .ok (s1, r) → r = none)
    (path : GoString) (fs : Node) (s : σ) :
    walk fn path fs s =
      match feed fn (visits path fs) s with
      | .error p => .error p
      | .ok s1 => .ok (s1, none) := by
  cases fs with
  | noStat =>
    simp only [walk, visits, feed]
    cases h : fn s path none (some (.lstat path)) with
    | error p => simp
    | ok r => obtain ⟨s1, e⟩ := r; simp [hnil _ _ _ _ _ _ h]
  | file =>
    simp only [walk, visits, feed]
    cases h : fn s path (some ⟨false⟩) none with
    | error p => simp
    | ok r => obtain ⟨s1, e⟩ := r; simp [hnil _ _ _ _ _ _ h]
  | dirNoRead =>
    simp only [walk, visits, feed]
    cases h : fn s path (some ⟨true⟩) (some (.readdir path)) with
    | error p => simp
    | ok r => obtain ⟨s1, e⟩ := r; simp [hnil _ _ _ _ _ _ h]
  | dir entries =>
    simp only [walk, visits, feed]
    cases h : fn s path (some ⟨true⟩) none with
    | error p => simp
    | ok r =>
      obtain ⟨s1, e⟩ := r
      have he := hnil _ _ _ _ _ _ h
      subst he
      simp only []
      exact walkNames_eq_feed fn hnil path entries s1
theorem walkNames_eq_feed {σ : Type} (fn : WalkFunc σ)
    (hnil : ∀ s p i e s1 r, fn s p i e = .ok (s1, r) → r = none)
    (path : GoString) (entries : List (GoString × Node)) (s : σ) :
    walkNames fn path entries s =
      match feed fn (visitsNames path entries) s with
      | .error p => .error p
      | .ok s1 => .ok (s1, none) := by
  cases entries with
  | nil => simp [walkNames, visitsNames, feed]
  | cons hd rest =>
    obtain ⟨name, child⟩ := hd
    simp only [walkNames, visitsNames, feed_append]
    rw [walk_eq_feed fn hnil (Join [path, name]) child s]
    cases h : feed fn (visits (Join [path, name]) child) s with
    | error p => simp
    | ok s1 =>
      simp only []
      exact walkNames_eq_feed fn hnil path rest s1
end

theorem traverseFn_nil (lower : Nat → Nat) (cli : Cli) :
    ∀ s p i e s1 r, traverseFn lower cli s p i e = .ok (s1, r) → r = none := by
  intro s p i e s1 r h
  unfold traverseFn at h
  cases i with
  | none => simp at h
  | some fi =>
    simp only [] at h
    split at h <;> simp at h <;> exact h.2.symm

theorem feed_traverseFn (lower : Nat → Nat) (cli : Cli) (vs : List Visit) (files : List GoString) :
    feed (traverseFn lower cli) vs files =
      if vs.all (fun v => v.info.isSome) then .ok (files ++ specMatchedFiles lower cli vs)
      else .error .nilDereference := by
  induction vs generalizing files with
  | nil => simp [feed, specMatchedFiles]
  | cons v vs ih =>
    obtain ⟨path, info, err⟩ := v
    cases info with
    | none => simp [feed, traverseFn]
    | some fi =>
      obtain ⟨d⟩ := fi
      cases d <;>
        by_cases h1 : (Rel cli.Dir path).2 = none <;>
        by_cases h2 : ToLower lower (Ext (Rel cli.Dir path).1) = cli.SrcExt <;>
        simp [feed, traverseFn, ih, specMatchedFiles, List.filter_cons, h1, h2]

theorem Walk_eq_feed {σ : Type} (fn : WalkFunc σ)
    (hnil : ∀ s p i e s1 r, fn s p i e = .ok (s1, r) → r = none)
    (root : GoString) (fs : Node) (s : σ) :
    Walk fn root fs s =
      match feed fn (visits root fs) s with
      | .error p => .error p
      | .ok s1 => .ok (s1, none) := by
  unfold Walk
  rw [walk_eq_feed fn hnil]
  cases feed fn (visits root fs) s <;> rfl

/-- The result of `traverseImageFiles` in terms of the visits of the walk. -/
theorem traverseImageFiles_eq (lower : Nat → Nat) (cli : Cli) (fs : Node) :
    traverseImageFiles lower cli fs =
      if (visits cli.Dir fs).all (fun v => v.info.isSome) then
        .ok (specMatchedFiles lower cli (visits cli.Dir fs), none)
      else .error .nilDereference := by
  unfold traverseImageFiles
  rw [Walk_eq_feed _ (traverseFn_nil lower cli), feed_traverseFn]
  by_cases h : (visits cli.Dir fs).all (fun v => v.info.isSome) = true
  · simp only [h, if_true, List.nil_append]
  · simp only [h, if_false]
    rfl

/-! ## `filepath.Clean`, `filepath.Join` and `filepath.Rel` along a walk -/

theorem gs_slash : gs "/" = [0x2F] := by decide

theorem gs_dot : gs "." = [0x2E] := by decide

theorem gs_dotdot : gs ".." = [0x2E, 0x2E] := by decide

theorem intercalate_eq_joinSep (es : List GoString) : (gs "/").intercalate es = joinSep es := by
  rw [gs_slash]
  induction es with
  | nil => rfl
  | cons e es ih =>
    cases es with
    | nil => simp [List.intercalate, joinSep]
    | cons e1 es =>
      simp only [List.intercalate, List.intersperse_cons_cons, List.flatten_cons, joinSep] at ih ⊢
      rw [ih]
      simp

theorem splitSep_ne_nil (s : GoString) : splitSep s ≠ [] := by
  cases s with
  | nil => simp [splitSep]
  | cons c t =>
    unfold splitSep
    split_ifs
    · simp
    · split <;> simp

theorem splitSep_cons_of_ne (c : Nat) (t w : GoString) (ws : List GoString) (hc : c ≠ 0x2F)
    (hs : splitSep t = w :: ws) : splitSep (c :: t) = (c :: w) :: ws := by
  rw [splitSep, if_neg hc, hs]

theorem splitSep_of_not_mem (e : GoString) (h : 0x2F ∉ e) : splitSep e = [e] := by
  induction e with
  | nil => rfl
  | cons c t ih =>
    simp only [List.mem_cons, not_or] at h
    unfold splitSep
    rw [if_neg (fun hc => h.1 hc.symm), ih h.2]

theorem splitSep_append (a b : GoString) :
    splitSep (a ++ 0x2F :: b) = splitSep a ++ splitSep b := by
  induction a with
  | nil => simp [splitSep]
  | cons c t ih =>
    rw [List.cons_append]
    by_cases hc : c = 0x2F
    · subst hc
      simp [splitSep, ih]
    · cases hs : splitSep t with
      | nil => exact absurd hs (splitSep_ne_nil t)
      | cons w ws =>
        rw [splitSep_cons_of_ne c _ w (ws ++ splitSep b) hc (by rw [ih, hs]; rfl),
          splitSep_cons_of_ne c _ w ws hc hs]
        rfl

theorem splitSep_name_append (e b : GoString) (h : 0x2F ∉ e) :
    splitSep (e ++ 0x2F :: b) = e :: splitSep b := by
  rw [splitSep_append, splitSep_of_not_mem e h]
  rfl

theorem splitSep_joinSep (es : List GoString) (hne : es ≠ []) (h : ∀ e ∈ es, 0x2F ∉ e) :
    splitSep (joinSep es) = es := by
  induction es with
  | nil => exact absurd rfl hne
  | cons e es ih =>
    cases es with
    | nil => exact splitSep_of_not_mem e (h e (by simp))
    | cons e1 es =>
      simp only [joinSep]
      rw [splitSep_name_append e _ (h e (by simp)),
        ih (by simp) (fun x hx => h x (List.mem_cons_of_mem _ hx))]

theorem joinSep_append_singleton (es : List GoString) (n : GoString) (hne : es ≠ []) :
    joinSep (es ++ [n]) = joinSep es ++ 0x2F :: n := by
  induction es with
  | nil => exact absurd rfl hne
  | cons e es ih =>
    cases es with
    | nil => simp [joinSep]
    | cons e1 es =>
      have ih1 := ih (by simp)
      rw [List.cons_append] at ih1
      show e ++ 0x2F :: joinSep (e1 :: (es ++ [n])) = (e ++ 0x2F :: joinSep (e1 :: es)) ++ 0x2F :: n
      rw [ih1]
      simp

theorem joinSep_append (es ns : List GoString) (hes : es ≠ []) (hns : ns ≠ []) :
    joinSep (es ++ ns) = joinSep es ++ 0x2F :: joinSep ns := by
  induction es with
  | nil => exact absurd rfl hes
  | cons e es ih =>
    cases es with
    | nil =>
      cases ns with
      | nil => exact absurd rfl hns
      | cons n ns => simp [joinSep]
    | cons e1 es =>
      have ih1 := ih (by simp)
      rw [List.cons_append] at ih1
      show e ++ 0x2F :: joinSep (e1 :: (es ++ ns)) =
        (e ++ 0x2F :: joinSep (e1 :: es)) ++ 0x2F :: joinSep ns
      rw [ih1]
      simp

theorem splitSep_no_sep (s : GoString) : ∀ e ∈ splitSep s, 0x2F ∉ e := by
  induction s with
  | nil => simp [splitSep]
  | cons c t ih =>
    by_cases hc : c = 0x2F
    · subst hc
      intro e he
      simp only [splitSep, if_true, List.mem_cons] at he
      rcases he with rfl | he
      · simp
      · exact ih e he
    · cases hs : splitSep t with
      | nil => exact absurd hs (splitSep_ne_nil t)
      | cons w ws =>
        rw [splitSep_cons_of_ne c t w ws hc hs]
        rw [hs] at ih
        intro e he
        simp only [List.mem_cons] at he
        rcases he with rfl | he
        · intro hmem
          simp only [List.mem_cons] at hmem
          rcases hmem with hmem | hmem
          · exact hc hmem.symm
          · exact ih w (by simp) hmem
        · exact ih e (by simp [he])

theorem cleanStep_normal (rooted : Bool) (st : List GoString × Nat) (n : GoString)
    (hn : NormalName n) : cleanStep rooted st n = (st.1 ++ [n], st.2) := by
  obtain ⟨h1, _, h3, h4⟩ := hn
  unfold cleanStep
  rw [if_neg (by simp [h1, h3]), if_neg h4]

theorem foldl_cleanStep_normal (rooted : Bool) (ns : List GoString)
    (h : ∀ n ∈ ns, NormalName n) (st : List GoString × Nat) :
    ns.foldl (cleanStep rooted) st = (st.1 ++ ns, st.2) := by
  induction ns generalizing st with
  | nil => simp
  | cons n ns ih =>
    rw [List.foldl_cons, cleanStep_normal rooted st n (h n (by simp)),
      ih (fun x hx => h x (List.mem_cons_of_mem _ hx))]
    simp

theorem foldl_cleanStep_dotdots (m j : Nat) :
    (List.replicate m (gs "..")).foldl (cleanStep false) (List.replicate j (gs ".."), j) =
      (List.replicate (j + m) (gs ".."), j + m) := by
  induction m generalizing j with
  | zero => simp
  | succ m ih =>
    rw [List.replicate_succ, List.foldl_cons]
    have hstep : cleanStep false (List.replicate j (gs ".."), j) (gs "..") =
        (List.replicate (j + 1) (gs ".."), j + 1) := by
      unfold cleanStep
      rw [if_neg (by decide), if_pos rfl]
      simp [List.replicate_succ']
    rw [hstep, ih, Nat.add_assoc, Nat.add_comm 1 m]

theorem normalName_no_sep {n : GoString} (h : NormalName n) : 0x2F ∉ n := h.2.1

theorem normalName_ne_nil {n : GoString} (h : NormalName n) : n ≠ [] := h.1

theorem cleanStep_state (rooted : Bool) (st : List GoString × Nat) (e : GoString)
    (he : 0x2F ∉ e) (h : CleanState rooted st) : CleanState rooted (cleanStep rooted st e) := by
  obtain ⟨out, k⟩ := st
  obtain ⟨rest, hout, hrest, hroot⟩ := h
  simp only at hout hroot
  unfold cleanStep
  by_cases h1 : e = [] ∨ e = gs "."
  · rw [if_pos h1]
    exact ⟨rest, hout, hrest, hroot⟩
  · rw [if_neg h1]
    by_cases h2 : e = gs ".."
    · rw [if_pos h2]
      simp only
      by_cases h3 : k < out.length
      · rw [if_pos h3]
        have hne : rest ≠ [] := by
          intro hnil
          rw [hout, hnil] at h3
          simp at h3
        refine ⟨rest.dropLast, ?_, fun x hx => hrest x (List.dropLast_subset _ hx), hroot⟩
        simp only
        rw [hout, List.dropLast_append_of_ne_nil _ hne]
      · rw [if_neg h3]
        have hnil : rest = [] := by
          rw [hout] at h3
          simp only [List.length_append, List.length_replicate] at h3
          exact List.length_eq_zero.mp (by omega)
        subst hnil
        cases rooted with
        | true =>
          simp only [Bool.not_true, Bool.false_eq_true, if_false]
          exact ⟨[], hout, hrest, hroot⟩
        | false =>
          simp only [Bool.not_false, if_true]
          refine ⟨[], ?_, by simp, by simp⟩
          simp only [hout, h2, List.append_nil, List.length_replicate]
          rw [List.replicate_succ']
    · rw [if_neg h2]
      refine ⟨rest ++ [e], ?_, ?_, hroot⟩
      · simp only [hout, List.append_assoc]
      · intro x hx
        rcases List.mem_append.mp hx with hx | hx
        · exact hrest x hx
        · simp only [List.mem_singleton] at hx
          subst hx
          exact ⟨fun hc => h1 (Or.inl hc), he, fun hc => h1 (Or.inr hc), h2⟩

theorem foldl_cleanStep_state (rooted : Bool) (es : List GoString) (hes : ∀ e ∈ es, 0x2F ∉ e)
    (st : List GoString × Nat) (h : CleanState rooted st) :
    CleanState rooted (es.foldl (cleanStep rooted) st) := by
  induction es generalizing st with
  | nil => exact h
  | cons e es ih =>
    exact ih (fun x hx => hes x (List.mem_cons_of_mem _ hx)) _
      (cleanStep_state rooted st e (hes e (by simp)) h)

theorem Clean_eq_render (path : GoString) :
    Clean path = render (decide (path.head? = some 0x2F))
      ((splitSep path).foldl (cleanStep (decide (path.head? = some 0x2F))) ([], 0)).1 := by
  unfold Clean render
  by_cases hnil : path = []
  · subst hnil
    decide
  · rw [if_neg hnil]
    by_cases hr : path.head? = some 0x2F
    · simp only [hr, if_true, decide_True, intercalate_eq_joinSep]
      rw [gs_slash]
      rfl
    · simp only [hr, if_false, decide_False, intercalate_eq_joinSep, Bool.false_eq_true]

theorem joinSep_head (e : GoString) (es : List GoString) (he : e ≠ []) :
    (joinSep (e :: es)).head? = e.head? := by
  cases es with
  | nil => rfl
  | cons e1 es =>
    simp only [joinSep]
    cases e with
    | nil => exact absurd rfl he
    | cons c t => rfl

theorem cleanState_no_sep {rooted : Bool} {st : List GoString × Nat} (h : CleanState rooted st) :
    ∀ e ∈ st.1, 0x2F ∉ e ∧ e ≠ [] := by
  obtain ⟨rest, hout, hrest, _⟩ := h
  intro e he
  rw [hout] at he
  rcases List.mem_append.mp he with he | he
  · rw [List.eq_of_mem_replicate he]
    decide
  · exact ⟨(hrest e he).2.1, (hrest e he).1⟩

theorem render_ne_nil (rooted : Bool) (out : List GoString) (h : ∀ e ∈ out, e ≠ []) :
    render rooted out ≠ [] := by
  unfold render
  cases rooted with
  | true => simp
  | false =>
    simp only [Bool.false_eq_true, if_false]
    split_ifs with hnil
    · decide
    · cases out with
      | nil => exact absurd rfl hnil
      | cons e es =>
        intro hj
        have hh := joinSep_head e es (h e (by simp))
        rw [hj] at hh
        cases e with
        | nil => exact h [] (by simp) rfl
        | cons c t => simp at hh

theorem render_head (rooted : Bool) (out : List GoString) (h : ∀ e ∈ out, 0x2F ∉ e ∧ e ≠ []) :
    decide ((render rooted out).head? = some 0x2F) = rooted := by
  unfold render
  cases rooted with
  | true => simp
  | false =>
    simp only [Bool.false_eq_true, if_false, decide_eq_false_iff_not]
    split_ifs with hnil
    · decide
    · cases out with
      | nil => exact absurd rfl hnil
      | cons e es =>
        rw [joinSep_head e es (h e (by simp)).2]
        cases e with
        | nil => simp
        | cons c t =>
          intro hc
          simp only [List.head?_cons, Option.some.injEq] at hc
          exact (h (c :: t) (by simp)).1 (by simp [hc])

theorem refold (rooted : Bool) (out : List GoString) (k : Nat) (h : CleanState rooted (out, k)) :
    (splitSep (render rooted out)).foldl (cleanStep rooted) ([], 0) = (out, k) := by
  have hsep := cleanState_no_sep h
  obtain ⟨rest, hout, hrest, hroot⟩ := h
  simp only at hout hroot hsep
  cases rooted with
  | true =>
    have hk : k = 0 := hroot rfl
    subst hk
    simp only [List.replicate_zero, List.nil_append] at hout
    subst hout
    unfold render
    simp only [if_true]
    have hsplit : splitSep (0x2F :: joinSep out) = [] :: splitSep (joinSep out) := by
      rw [splitSep, if_pos rfl]
    rw [hsplit, List.foldl_cons]
    have hskip : cleanStep true ([], 0) [] = ([], 0) := by decide
    rw [hskip]
    cases out with
    | nil => decide
    | cons e es =>
      rw [splitSep_joinSep _ (by simp) (fun x hx => (hsep x hx).1),
        foldl_cleanStep_normal true _ hrest]
      simp
  | false =>
    unfold render
    simp only [Bool.false_eq_true, if_false]
    split_ifs with hnil
    · subst hnil
      have hk : k = 0 := by
        cases k with
        | zero => rfl
        | succ k => simp [List.replicate_succ] at hout
      subst hk
      decide
    · rw [splitSep_joinSep _ hnil (fun x hx => (hsep x hx).1), hout, List.foldl_append]
      have hd := foldl_cleanStep_dotdots k 0
      simp only [List.replicate_zero, Nat.zero_add] at hd
      rw [hd, foldl_cleanStep_normal false _ hrest]

theorem cleanState_init (rooted : Bool) : CleanState rooted ([], 0) :=
  ⟨[], by simp, by simp, fun _ => rfl⟩

theorem cleanState_of_path (path : GoString) :
    CleanState (decide (path.head? = some 0x2F))
      ((splitSep path).foldl (cleanStep (decide (path.head? = some 0x2F))) ([], 0)) :=
  foldl_cleanStep_state _ _ (splitSep_no_sep path) _ (cleanState_init _)

theorem cleanState_snoc {rooted : Bool} {st : List GoString × Nat} (h : CleanState rooted st)
    (ns : List GoString) (hns : ∀ n ∈ ns, NormalName n) : CleanState rooted (st.1 ++ ns, st.2) := by
  obtain ⟨rest, hout, hrest, hroot⟩ := h
  refine ⟨rest ++ ns, by simp [hout], ?_, hroot⟩
  intro e he
  rcases List.mem_append.mp he with he | he
  · exact hrest e he
  · exact hns e he

/-- Joining a normal name to a non-empty path adds one element to the cleaned
path. -/
theorem Join_name (path n : GoString) (hpath : path ≠ []) (hn : NormalName n) :
    Join [path, n] = render (decide (path.head? = some 0x2F))
      (((splitSep path).foldl (cleanStep (decide (path.head? = some 0x2F))) ([], 0)).1 ++ [n]) := by
  have hjoin : Join [path, n] = Clean (path ++ 0x2F :: n) := by
    unfold Join
    simp only [List.dropWhile_cons, decide_eq_true_eq, hpath, if_false, intercalate_eq_joinSep,
      joinSep]
  have hhead : (path ++ 0x2F :: n).head? = path.head? := by
    cases path with
    | nil => exact absurd rfl hpath
    | cons c t => rfl
  rw [hjoin, Clean_eq_render, hhead, splitSep_append, splitSep_of_not_mem n hn.2.1,
    List.foldl_append, List.foldl_cons, List.foldl_nil, cleanStep_normal _ _ n hn]

theorem Join_root (dir n : GoString) (hn : NormalName n) :
    Join [dir, n] = render (decide (dir.head? = some 0x2F))
      (((splitSep dir).foldl (cleanStep (decide (dir.head? = some 0x2F))) ([], 0)).1 ++ [n]) := by
  by_cases hdir : dir = []
  · subst hdir
    have hjoin : Join [[], n] = Clean n := by
      unfold Join
      simp only [List.dropWhile_cons, decide_True, if_true, decide_eq_true_eq, hn.1, if_false,
        intercalate_eq_joinSep, joinSep, List.dropWhile_nil]
    have hroot : n.head? ≠ some 0x2F := by
      cases n with
      | nil => simp
      | cons c t =>
        intro hc
        simp only [List.head?_cons, Option.some.injEq] at hc
        exact hn.2.1 (by simp [hc])
    rw [hjoin, Clean_eq_render, splitSep_of_not_mem n hn.2.1]
    simp only [hroot, decide_False, List.foldl_cons, List.foldl_nil, cleanStep_normal _ _ n hn,
      List.head?_nil]
    rfl
  · exact Join_name dir n hdir hn

theorem Join_render (rooted : Bool) (out : List GoString) (k : Nat) (n : GoString)
    (h : CleanState rooted (out, k)) (hn : NormalName n) :
    Join [render rooted out, n] = render rooted (out ++ [n]) := by
  have hsep := cleanState_no_sep h
  rw [Join_name _ n (render_ne_nil rooted out (fun e he => (hsep e he).2)) hn,
    render_head rooted out hsep, refold rooted out k h]

theorem Clean_render (rooted : Bool) (out : List GoString) (k : Nat)
    (h : CleanState rooted (out, k)) : Clean (render rooted out) = render rooted out := by
  have hsep := cleanState_no_sep h
  rw [Clean_eq_render, render_head rooted out hsep, refold rooted out k h]

theorem takeWhile_name (e s : GoString) (he : 0x2F ∉ e) :
    (e ++ 0x2F :: s).takeWhile (fun c => decide (c ≠ 0x2F)) = e := by
  induction e with
  | nil => simp
  | cons c t ih =>
    simp only [List.mem_cons, not_or] at he
    rw [List.cons_append, List.takeWhile_cons]
    simp only [ne_eq, decide_not, Bool.not_eq_true', decide_eq_false_iff_not]
    rw [if_pos (fun hc => he.1 hc.symm)]
    congr 1
    simpa using ih he.2

theorem takeWhile_name_end (e : GoString) (he : 0x2F ∉ e) :
    e.takeWhile (fun c => decide (c ≠ 0x2F)) = e := by
  rw [List.takeWhile_eq_self_iff]
  intro c hc
  simp only [ne_eq, decide_not, Bool.not_eq_true', decide_eq_false_iff_not]
  intro h
  exact he (h ▸ hc)

theorem dropWhile_name (e s : GoString) (he : 0x2F ∉ e) :
    (e ++ 0x2F :: s).dropWhile (fun c => decide (c ≠ 0x2F)) = 0x2F :: s := by
  induction e with
  | nil => simp
  | cons c t ih =>
    simp only [List.mem_cons, not_or] at he
    rw [List.cons_append, List.dropWhile_cons]
    simp only [ne_eq, decide_not, Bool.not_eq_true', decide_eq_false_iff_not]
    rw [if_pos (fun hc => he.1 hc.symm)]
    simpa using ih he.2

theorem dropWhile_name_end (e : GoString) (he : 0x2F ∉ e) :
    e.dropWhile (fun c => decide (c ≠ 0x2F)) = [] := by
  rw [List.dropWhile_eq_nil_iff]
  intro c hc
  simp only [ne_eq, decide_not, Bool.not_eq_true', decide_eq_false_iff_not]
  intro h
  exact he (h ▸ hc)

theorem joinSep_cons (e : GoString) (es : List GoString) (hes : es ≠ []) :
    joinSep (e :: es) = e ++ 0x2F :: joinSep es := by
  cases es with
  | nil => exact absurd rfl hes
  | cons e1 es => rfl

theorem joinSep_ne_nil (es : List GoString) (hne : es ≠ []) (h : ∀ e ∈ es, e ≠ []) :
    joinSep es ≠ [] := by
  cases es with
  | nil => exact absurd rfl hne
  | cons e es =>
    intro hj
    have hh := joinSep_head e es (h e (by simp))
    rw [hj] at hh
    cases e with
    | nil => exact h [] (by simp) rfl
    | cons c t => simp at hh

theorem joinSep_length (es : List GoString) (h : ∀ e ∈ es, e ≠ []) :
    es.length ≤ (joinSep es).length := by
  induction es with
  | nil => simp
  | cons e es ih =>
    cases es with
    | nil =>
      have := List.length_pos.mpr (h e (by simp))
      simpa [joinSep] using this
    | cons e1 es =>
      have ih1 := ih (fun x hx => h x (List.mem_cons_of_mem _ hx))
      simp only [joinSep, List.length_cons, List.length_append] at ih1 ⊢
      omega

/-- The loop of `filepath.Rel` on a base and a target that extends it by the
names `ns`: the base is used up and the names are left. -/
theorem relLoop_common (es ns : List GoString) (hes : ∀ e ∈ es, 0x2F ∉ e ∧ e ≠ [])
    (hns : ns ≠ []) (hnn : ∀ e ∈ ns, 0x2F ∉ e ∧ e ≠ []) (fuel : Nat) (hfuel : es.length < fuel) :
    relLoop fuel (joinSep es) (joinSep (es ++ ns)) = ([], joinSep ns, false) := by
  induction es generalizing fuel with
  | nil =>
    cases fuel with
    | zero => simp at hfuel
    | succ f => simp [relLoop, joinSep]
  | cons e es ih =>
    cases fuel with
    | zero => simp at hfuel
    | succ f =>
      have he := hes e (by simp)
      have hb : joinSep (e :: es) ≠ [] := joinSep_ne_nil _ (by simp) (fun x hx => (hes x hx).2)
      have ht : joinSep (e :: es ++ ns) ≠ [] :=
        joinSep_ne_nil _ (by simp) (fun x hx => by
          rcases List.mem_append.mp hx with hx | hx
          · exact (hes x hx).2
          · exact (hnn x hx).2)
      have htail : es ++ ns ≠ [] := by simp [hns]
      have htw : (joinSep (e :: es ++ ns)).takeWhile (fun c => decide (c ≠ 0x2F)) = e := by
        rw [List.cons_append, joinSep_cons e _ htail, takeWhile_name e _ he.1]
      have htd : ((joinSep (e :: es ++ ns)).dropWhile (fun c => decide (c ≠ 0x2F))).drop 1 =
          joinSep (es ++ ns) := by
        rw [List.cons_append, joinSep_cons e _ htail, dropWhile_name e _ he.1]
        rfl
      have hbw : (joinSep (e :: es)).takeWhile (fun c => decide (c ≠ 0x2F)) = e := by
        cases es with
        | nil => exact takeWhile_name_end e he.1
        | cons e1 es => rw [joinSep_cons e _ (by simp), takeWhile_name e _ he.1]
      have hbd : ((joinSep (e :: es)).dropWhile (fun c => decide (c ≠ 0x2F))).drop 1 =
          joinSep es := by
        cases es with
        | nil =>
          show (List.dropWhile _ e).drop 1 = []
          rw [dropWhile_name_end e he.1]
          rfl
        | cons e1 es =>
          rw [joinSep_cons e _ (by simp), dropWhile_name e _ he.1]
          rfl
      rw [relLoop, if_neg (not_or.mpr ⟨hb, ht⟩), htw, hbw, if_neg (by simp), htd, hbd]
      exact ih (fun x hx => hes x (List.mem_cons_of_mem _ hx)) f
        (by simp only [List.length_cons] at hfuel; omega)

theorem render_injective (rooted : Bool) (out out1 : List GoString) (k k1 : Nat)
    (h : CleanState rooted (out, k)) (h1 : CleanState rooted (out1, k1))
    (heq : render rooted out = render rooted out1) : out = out1 := by
  have e := refold rooted out k h
  rw [heq, refold rooted out1 k1 h1] at e
  exact (Prod.mk.inj e).1.symm

/-- The relative path of a path below `dir`: `filepath.Rel` succeeds and
returns the names joined by separators. -/
theorem Rel_render (dir : GoString) (ns : List GoString) (hns : ns ≠ [])
    (hnn : ∀ n ∈ ns, NormalName n) :
    Rel dir (render (decide (dir.head? = some 0x2F))
      (((splitSep dir).foldl (cleanStep (decide (dir.head? = some 0x2F))) ([], 0)).1 ++ ns)) =
      (joinSep ns, none) := by
  have hS := cleanState_of_path dir
  have hclean := Clean_eq_render dir
  generalize decide (dir.head? = some 0x2F) = r0 at hS hclean ⊢
  generalize (splitSep dir).foldl (cleanStep r0) ([], 0) = S at hS hclean ⊢
  obtain ⟨out0, k0⟩ := S
  simp only at hclean ⊢
  have hP : CleanState r0 (out0 ++ ns, k0) := cleanState_snoc hS ns hnn
  have hsep0 := cleanState_no_sep hS
  have hsepP := cleanState_no_sep hP
  simp only at hsep0 hsepP
  have hnn1 : ∀ e ∈ ns, 0x2F ∉ e ∧ e ≠ [] := fun e he => ⟨(hnn e he).2.1, (hnn e he).1⟩
  have hne : render r0 (out0 ++ ns) ≠ render r0 out0 := by
    intro heq
    have := render_injective r0 _ _ _ _ hP hS heq
    exact hns (List.append_right_eq_self.mp this)
  unfold Rel
  rw [Clean_render r0 _ k0 hP, hclean, if_neg hne]
  have hheadP := render_head r0 (out0 ++ ns) hsepP
  have hheadB := render_head r0 out0 hsep0
  cases r0 with
  | true =>
    have hB : render true out0 ≠ gs "." := by
      unfold render
      rw [gs_dot]
      simp
    rw [if_neg hB]
    simp only [decide_eq_true_eq] at hheadP hheadB
    rw [if_neg (by simp [hheadP, hheadB])]
    have hb : render true out0 = 0x2F :: joinSep out0 := by simp [render]
    have ht : render true (out0 ++ ns) = 0x2F :: joinSep (out0 ++ ns) := by simp [render]
    rw [hb, ht]
    have hlen := joinSep_length out0 (fun e he => (hsep0 e he).2)
    rw [List.length_cons, relLoop, if_neg (by simp)]
    simp only [List.takeWhile_cons, ne_eq, not_true_eq_false, decide_False, Bool.false_eq_true,
      if_false, List.dropWhile_cons, List.drop_succ_cons, List.drop_zero]
    rw [relLoop_common out0 ns hsep0 hns hnn1 _ (by omega)]
    rfl
  | false =>
    simp only [decide_eq_false_iff_not] at hheadP hheadB
    by_cases hnil : out0 = []
    · subst hnil
      have hb : render false [] = gs "." := by simp [render]
      have ht : render false ([] ++ ns) = joinSep ns := by simp [render, hns]
      have hheadT : ¬ (joinSep ns).head? = some 0x2F := by
        rw [← ht]
        exact hheadP
      rw [hb, ht, if_pos rfl, if_neg (by simp [hheadT])]
      simp [relLoop, relFinish]
    · have hb : render false out0 = joinSep out0 := by simp [render, hnil]
      have ht : render false (out0 ++ ns) = joinSep (out0 ++ ns) := by simp [render, hnil]
      have hB : render false out0 ≠ gs "." := by
        intro heq
        have hd : CleanState false ([], 0) := cleanState_init false
        have : render false out0 = render false [] := by
          rw [heq]
          simp [render]
        exact hnil (render_injective false _ _ _ _ hS hd this)
      rw [if_neg hB]
      rw [if_neg (by simp [hheadP, hheadB])]
      rw [hb, ht]
      have hlen := joinSep_length out0 (fun e he => (hsep0 e he).2)
      rw [relLoop_common out0 ns hsep0 hns hnn1 _ (by omega)]
      rfl

theorem Rel_self (dir : GoString) : Rel dir dir = (gs ".", none) := by
  unfold Rel
  rw [if_pos rfl]

theorem Rel_pathOf (dir : GoString) (ns : List GoString) (hnn : ∀ n ∈ ns, NormalName n) :
    Rel dir (pathOf dir ns) = (relOf ns, none) := by
  unfold pathOf relOf
  by_cases hns : ns = []
  · rw [if_pos hns, if_pos hns]
    exact Rel_self dir
  · rw [if_neg hns, if_neg hns]
    exact Rel_render dir ns hns hnn

theorem Join_pathOf (dir : GoString) (ns : List GoString) (n : GoString)
    (hnn : ∀ x ∈ ns, NormalName x) (hn : NormalName n) :
    Join [pathOf dir ns, n] = pathOf dir (ns ++ [n]) := by
  unfold pathOf
  by_cases hns : ns = []
  · subst hns
    simp only [if_true, List.nil_append, List.cons_ne_nil, if_false]
    exact Join_root dir n hn
  · rw [if_neg hns, if_neg (by simp)]
    have hS := cleanState_of_path dir
    generalize decide (dir.head? = some 0x2F) = r0 at hS ⊢
    generalize (splitSep dir).foldl (cleanStep r0) ([], 0) = S at hS ⊢
    obtain ⟨out0, k0⟩ := S
    rw [Join_render r0 _ k0 n (cleanState_snoc hS ns hnn) hn, List.append_assoc]

mutual
theorem visits_tree (dir : GoString) (ns : List GoString) (hnn : ∀ x ∈ ns, NormalName x)
    (fs : Node) (hwf : wellFormed fs = true) :
    (visits (pathOf dir ns) fs).map (fun v => (Rel dir v.path, v.info)) =
      (treeEntries ns fs).map (fun e => ((e.1, none), some ⟨e.2⟩)) := by
  cases fs with
  | noStat => simp [wellFormed] at hwf
  | file => simp [visits, treeEntries, Rel_pathOf dir ns hnn]
  | dirNoRead => simp [visits, treeEntries, Rel_pathOf dir ns hnn]
  | dir entries =>
    simp only [visits, treeEntries, List.map_cons, Rel_pathOf dir ns hnn]
    rw [visitsNames_tree dir ns hnn entries (by simpa [wellFormed] using hwf)]
theorem visitsNames_tree (dir : GoString) (ns : List GoString) (hnn : ∀ x ∈ ns, NormalName x)
    (entries : List (GoString × Node)) (hwf : wellFormedNames entries = true) :
    (visitsNames (pathOf dir ns) entries).map (fun v => (Rel dir v.path, v.info)) =
      (treeEntriesNames ns entries).map (fun e => ((e.1, none), some ⟨e.2⟩)) := by
  cases entries with
  | nil => simp [visitsNames, treeEntriesNames]
  | cons hd rest =>
    obtain ⟨name, child⟩ := hd
    simp only [wellFormedNames, Bool.and_eq_true, decide_eq_true_eq] at hwf
    obtain ⟨⟨hname, hchild⟩, hrest⟩ := hwf
    simp only [visitsNames, treeEntriesNames, List.map_append]
    rw [Join_pathOf dir ns name hnn hname,
      visits_tree dir (ns ++ [name]) (by
        intro x hx
        rcases List.mem_append.mp hx with hx | hx
        · exact hnn x hx
        · simp only [List.mem_singleton] at hx
          subst hx
          exact hname) child hchild,
      visitsNames_tree dir ns hnn rest hrest]
end

theorem specMatchedFiles_eq_map (lower : Nat → Nat) (cli : Cli) (vs : List Visit) :
    specMatchedFiles lower cli vs =
      ((vs.map (fun v => (Rel cli.Dir v.path, v.info))).filter
        (fun x => decide (x.2 = some ⟨false⟩ ∧ x.1.2 = none ∧
          ToLower lower (Ext x.1.1) = cli.SrcExt))).map (fun x => x.1.1) := by
  unfold specMatchedFiles
  rw [List.filter_map, List.map_map]
  rfl

theorem all_info_eq_map (dir : GoString) (vs : List Visit) :
    vs.all (fun v => v.info.isSome) =
      (vs.map (fun v => (Rel dir v.path, v.info))).all (fun x => x.2.isSome) := by
  induction vs with
  | nil => rfl
  | cons v vs ih => simp only [List.all_cons, List.map_cons, ih]

/-- On a tree whose names are names a directory read can return and whose
entries can all be examined, `traverseImageFiles` returns the relative paths
(the names from the root down, joined by separators) of the files whose
lower-cased extension equals `SrcExt`, in traversal order, with a nil error. -/
theorem traverseImageFiles_tree (lower : Nat → Nat) (cli : Cli) (fs : Node)
    (hwf : wellFormed fs = true) :
    traverseImageFiles lower cli fs = .ok (specMatchedTree lower cli fs, none) := by
  have hv := visits_tree cli.Dir [] (by simp) fs hwf
  have hp : pathOf cli.Dir [] = cli.Dir := by simp [pathOf]
  rw [hp] at hv
  rw [traverseImageFiles_eq, all_info_eq_map cli.Dir, specMatchedFiles_eq_map, hv]
  have hall : ((treeEntries [] fs).map
      (fun e => (((e.1, none) : GoString × Option GoError), some (FileInfo.mk e.2)))).all
      (fun x => x.2.isSome) = true := by
    rw [List.all_eq_true]
    intro x hx
    obtain ⟨e, _, rfl⟩ := List.mem_map.mp hx
    rfl
  rw [hall, if_pos rfl]
  congr 2
  unfold specMatchedTree
  rw [List.filter_map, List.map_map]
  congr 1
  apply List.filter_congr
  intro e _
  obtain ⟨p, d⟩ := e
  cases d <;> simp

/-! ## Every call comes from a goroutine -/

theorem step_sound {κ ρ : Type} (zero : ρ) (work : Nat → Except Panic (κ × ρ)) (n : Nat)
    (st : Pool κ ρ) (i : Nat) (h : st.Sound work n) : (step zero work st i).Sound work n := by
  obtain ⟨hlen, hcalls⟩ := h
  unfold step
  split
  · exact ⟨hlen, hcalls⟩
  · split
    · exact ⟨hlen, hcalls⟩
    · rename_i hget
      have hi : i < n := by
        rw [← hlen]
        exact (List.get?_eq_some.mp hget).1
      split
      · exact ⟨hlen, hcalls⟩
      · rename_i k r hw
        refine ⟨by simpa using hlen, ?_⟩
        intro k1 hk1
        rcases List.mem_append.mp hk1 with hk1 | hk1
        · exact hcalls k1 hk1
        · simp only [List.mem_singleton] at hk1
          subst hk1
          exact ⟨i, hi, r, hw⟩
    · exact ⟨by simpa using hlen, hcalls⟩
    · split
      · exact ⟨by simpa using hlen, hcalls⟩
      · exact ⟨by simpa using hlen, hcalls⟩
    · exact ⟨hlen, hcalls⟩
    · exact ⟨by simpa using hlen, hcalls⟩
    · exact ⟨hlen, hcalls⟩

theorem foldl_step_sound {κ ρ : Type} (zero : ρ) (work : Nat → Except Panic (κ × ρ)) (n : Nat)
    (sched : List Nat) (st : Pool κ ρ) (h : st.Sound work n) :
    (sched.foldl (step zero work) st).Sound work n := by
  induction sched generalizing st with
  | nil => exact h
  | cons i sched ih => exact ih _ (step_sound zero work n st i h)

theorem finish_sound {κ ρ : Type} (zero : ρ) (work : Nat → Except Panic (κ × ρ)) (n m : Nat)
    (st : Pool κ ρ) (h : st.Sound work n) : (finish zero work m st).Sound work n := by
  unfold finish
  generalize List.range m = l
  induction l generalizing st with
  | nil => exact h
  | cons i l ih =>
    exact ih _ (step_sound zero work n _ i (step_sound zero work n _ i
      (step_sound zero work n _ i (step_sound zero work n st i h))))

theorem runPool_sound {κ ρ : Type} (zero : ρ) (work : Nat → Except Panic (κ × ρ)) (n : Nat)
    (sched : List Nat) : (runPool zero work n sched).Sound work n := by
  unfold runPool
  apply finish_sound
  apply foldl_step_sound
  exact ⟨by simp, by simp⟩

/-! ## `DirConv`: the calls of the converter -/

theorem DirConv_eq_of_files (lower : Nat → Nat) (convert : GoString → GoString → Option GoError)
    (cli : Cli) (fs : Node) (sched : List Nat) (files : List GoString) (hdir : cli.Dir ≠ [])
    (hfiles : traverseImageFiles lower cli fs = .ok (files, none)) :
    DirConv lower convert cli fs sched =
      ⟨(goroutines convert cli files sched).calls,
        match (goroutines convert cli files sched).crashed with
        | some p => .panicked p
        | none => .returned (goroutines convert cli files sched).elems⟩ := by
  simp only [DirConv, if_neg hdir, hfiles]

theorem DirConv_cases (lower : Nat → Nat) (convert : GoString → GoString → Option GoError)
    (cli : Cli) (fs : Node) (sched : List Nat) :
    (DirConv lower convert cli fs sched).calls = [] ∧
        (∀ results, (DirConv lower convert cli fs sched).outcome ≠ .returned results) ∨
      ∃ files, cli.Dir ≠ [] ∧ traverseImageFiles lower cli fs = .ok (files, none) := by
  by_cases hdir : cli.Dir = []
  · left
    simp [DirConv, hdir]
  · cases hfiles : traverseImageFiles lower cli fs with
    | error p => left; simp [DirConv, hdir, hfiles]
    | ok r =>
      obtain ⟨files, err⟩ := r
      cases err with
      | none => right; exact ⟨files, hdir, rfl⟩
      | some e => left; simp [DirConv, hdir, hfiles]

theorem worker_ok {convert : GoString → GoString → Option GoError} {cli : Cli} {idx : Nat}
    {val : GoString} {k : GoString × GoString} {r : Result}
    (h : worker convert cli idx val = .ok (k, r)) :
    k = (oldFileName cli val, newFileName cli val) ∧
      r = ⟨idx, val, (convert (oldFileName cli val) (newFileName cli val)).isNone⟩ ∧
      cli.SrcExt.length ≤ (oldFileName cli val).length := by
  simp only [worker] at h
  split at h
  · rename_i hle
    simp only [Except.ok.injEq, Prod.mk.injEq] at h
    exact ⟨h.1.symm, h.2.symm, hle⟩
  · simp at h

theorem newFileName_of_suffix (cli : Cli) (val p : GoString)
    (h : oldFileName cli val = p ++ cli.SrcExt) : newFileName cli val = p ++ cli.TgtExt := by
  unfold newFileName
  rw [h]
  simp

/-- C4. Whenever `DirConv` calls the converter with a source path that is
`p ++ SrcExt`, the target path of that call is `p ++ TgtExt`; the source path
is `Dir + "/" + val` for a relative path `val` returned by
`traverseImageFiles`. -/
theorem DirConv_target_path (lower : Nat → Nat)
    (convert : GoString → GoString → Option GoError) (cli : Cli) (fs : Node) (sched : List Nat)
    (src tgt p : GoString)
    (hcall : (src, tgt) ∈ (DirConv lower convert cli fs sched).calls)
    (hsrc : src = p ++ cli.SrcExt) :
    tgt = p ++ cli.TgtExt ∧
      ∃ files val, traverseImageFiles lower cli fs = .ok (files, none) ∧ val ∈ files ∧
        src = cli.Dir ++ gs "/" ++ val := by
  rcases DirConv_cases lower convert cli fs sched with ⟨hnil, _⟩ | ⟨files, hdir, hfiles⟩
  · rw [hnil] at hcall
    simp at hcall
  · rw [DirConv_eq_of_files lower convert cli fs sched files hdir hfiles] at hcall
    obtain ⟨_, hcalls⟩ :=
      runPool_sound (⟨0, [], false⟩ : Result)
        (fun i => worker convert cli i (files.getD i [])) files.length sched
    obtain ⟨i, hi, r, hw⟩ := hcalls _ hcall
    obtain ⟨hk, _, _⟩ := worker_ok hw
    simp only [Prod.mk.injEq] at hk
    have hval : files.getD i [] ∈ files := by
      rw [List.getD_eq_getElem _ _ hi]
      exact List.getElem_mem hi
    refine ⟨?_, files, files.getD i [], hfiles, hval, hk.1⟩
    rw [hk.2]
    exact newFileName_of_suffix cli _ p (by rw [← hk.1, hsrc])

/-! ## UTF-8: decoding what was encoded -/

theorem decodeRune_one (s0 : Nat) (rest : GoString) (h : s0 < 0x80) :
    decodeRune (s0 :: rest) = (s0, 1) := by
  simp only [decodeRune, if_pos h]

theorem decodeRune_two (s0 s1 : Nat) (rest : GoString) (h0 : 0xC2 ≤ s0) (h0' : s0 < 0xE0)
    (h1 : 0x80 ≤ s1 ∧ s1 ≤ 0xBF) :
    decodeRune (s0 :: s1 :: rest) = (s0 % 32 * 64 + s1 % 64, 2) := by
  have a1 : ¬ s0 < 0x80 := by omega
  have a2 : ¬ s0 < 0xC2 := by omega
  simp only [decodeRune, if_neg a1, if_neg a2, if_pos h0', if_pos h1]

theorem decodeRune_three (s0 s1 s2 : Nat) (rest : GoString) (h0 : 0xE0 ≤ s0) (h0' : s0 < 0xF0)
    (h1 : (if s0 = 0xE0 then 0xA0 else 0x80) ≤ s1 ∧ s1 ≤ (if s0 = 0xED then 0x9F else 0xBF))
    (h2 : 0x80 ≤ s2 ∧ s2 ≤ 0xBF) :
    decodeRune (s0 :: s1 :: s2 :: rest) = (s0 % 16 * 4096 + s1 % 64 * 64 + s2 % 64, 3) := by
  have a1 : ¬ s0 < 0x80 := by omega
  have a2 : ¬ s0 < 0xC2 := by omega
  have a3 : ¬ s0 < 0xE0 := by omega
  simp only [decodeRune, if_neg a1, if_neg a2, if_neg a3, if_pos h0', if_pos h1, if_pos h2]

theorem decodeRune_four (s0 s1 s2 s3 : Nat) (rest : GoString) (h0 : 0xF0 ≤ s0) (h0' : s0 < 0xF5)
    (h1 : (if s0 = 0xF0 then 0x90 else 0x80) ≤ s1 ∧ s1 ≤ (if s0 = 0xF4 then 0x8F else 0xBF))
    (h2 : 0x80 ≤ s2 ∧ s2 ≤ 0xBF) (h3 : 0x80 ≤ s3 ∧ s3 ≤ 0xBF) :
    decodeRune (s0 :: s1 :: s2 :: s3 :: rest) =
      (s0 % 8 * 262144 + s1 % 64 * 4096 + s2 % 64 * 64 + s3 % 64, 4) := by
  have a1 : ¬ s0 < 0x80 := by omega
  have a2 : ¬ s0 < 0xC2 := by omega
  have a3 : ¬ s0 < 0xE0 := by omega
  have a4 : ¬ s0 < 0xF0 := by omega
  simp only [decodeRune, if_neg a1, if_neg a2, if_neg a3, if_neg a4, if_pos h0', if_pos h1,
    if_pos h2, if_pos h3]

theorem decodeRune_encodeRune (r : Nat) (rest : GoString) :
    decodeRune (encodeRune r ++ rest) = (validRune r, (encodeRune r).length) := by
  unfold encodeRune validRune
  by_cases h1 : r ≤ 0x7F
  · have hv : ¬ (0x10FFFF < r ∨ (0xD800 ≤ r ∧ r ≤ 0xDFFF)) := by omega
    rw [if_pos h1, if_neg hv]
    exact decodeRune_one r rest (by omega)
  · rw [if_neg h1]
    by_cases h2 : r ≤ 0x7FF
    · have hv : ¬ (0x10FFFF < r ∨ (0xD800 ≤ r ∧ r ≤ 0xDFFF)) := by omega
      rw [if_pos h2, if_neg hv]
      simp only [List.cons_append, List.nil_append, List.length_cons, List.length_nil]
      rw [decodeRune_two _ _ _ (by omega) (by omega) (by omega)]
      simp only [Prod.mk.injEq, and_true]
      omega
    · rw [if_neg h2]
      by_cases h3 : 0x10FFFF < r ∨ (0xD800 ≤ r ∧ r ≤ 0xDFFF)
      · rw [if_pos h3, if_pos h3]
        rfl
      · rw [if_neg h3, if_neg h3]
        by_cases h4 : r ≤ 0xFFFF
        · rw [if_pos h4]
          simp only [List.cons_append, List.nil_append, List.length_cons, List.length_nil]
          rw [decodeRune_three _ _ _ _ (by omega) (by omega) (by split_ifs <;> omega) (by omega)]
          simp only [Prod.mk.injEq, and_true]
          omega
        · rw [if_neg h4]
          simp only [List.cons_append, List.nil_append, List.length_cons, List.length_nil]
          rw [decodeRune_four _ _ _ _ _ (by omega) (by omega) (by split_ifs <;> omega) (by omega)
            (by omega)]
          simp only [Prod.mk.injEq, and_true]
          omega

/-! ## `strings.ToLower` is idempotent -/

theorem decodeRune_width_pos (b : Nat) (t : GoString) : 1 ≤ (decodeRune (b :: t)).2 := by
  simp only [decodeRune]
  repeat' split
  all_goals simp

theorem mapRunes_fuel (f : Nat → Nat) (n m : Nat) (s : GoString) (hn : s.length ≤ n)
    (hm : s.length ≤ m) : mapRunes f n s = mapRunes f m s := by
  induction n generalizing m s with
  | zero =>
    have hs : s = [] := List.length_eq_zero.mp (by omega)
    subst hs
    cases m <;> rfl
  | succ n ih =>
    cases s with
    | nil => cases m <;> rfl
    | cons b t =>
      cases m with
      | zero => simp at hm
      | succ m =>
        simp only [mapRunes]
        have hw := decodeRune_width_pos b t
        have hlen : ((b :: t).drop (decodeRune (b :: t)).2).length ≤ t.length := by
          simp only [List.length_drop, List.length_cons]
          omega
        simp only [List.length_cons] at hn hm
        rw [ih m _ (by omega) (by omega)]

theorem Map_nil (f : Nat → Nat) : Map f [] = [] := rfl

theorem Map_cons (f : Nat → Nat) (b : Nat) (t : GoString) :
    Map f (b :: t) = encodeRune (f (decodeRune (b :: t)).1) ++
      Map f ((b :: t).drop (decodeRune (b :: t)).2) := by
  unfold Map
  simp only [List.length_cons, mapRunes]
  have hw := decodeRune_width_pos b t
  rw [mapRunes_fuel f t.length _ _ (by simp only [List.length_drop, List.length_cons]; omega)
    (le_refl _)]

theorem encodeRune_ne_nil (r : Nat) : encodeRune r ≠ [] := by
  unfold encodeRune
  split_ifs <;> simp

theorem Map_encodeRune_append (f : Nat → Nat) (r : Nat) (rest : GoString) :
    Map f (encodeRune r ++ rest) = encodeRune (f (validRune r)) ++ Map f rest := by
  have hdec := decodeRune_encodeRune r rest
  cases henc : encodeRune r with
  | nil => exact absurd henc (encodeRune_ne_nil r)
  | cons b t =>
    rw [henc] at hdec
    rw [List.cons_append, Map_cons, ← List.cons_append, hdec]
    simp

theorem encodeRune_validRune (r : Nat) : encodeRune (validRune r) = encodeRune r := by
  unfold validRune
  split_ifs with h
  · unfold encodeRune RuneError
    have h1 : ¬ r ≤ 0x7F := by omega
    have h2 : ¬ r ≤ 0x7FF := by omega
    rw [if_neg h1, if_neg h2, if_pos h]
    rfl
  · rfl

theorem Map_idem_le (f : Nat → Nat) (hidem : ∀ r, f (f r) = f r)
    (herr : f RuneError = RuneError) (n : Nat) :
    ∀ s : GoString, s.length ≤ n → Map f (Map f s) = Map f s := by
  induction n with
  | zero =>
    intro s hs
    have hnil : s = [] := List.length_eq_zero.mp (by omega)
    subst hnil
    rfl
  | succ n ih =>
    intro s hs
    cases s with
    | nil => rfl
    | cons b t =>
      have hw := decodeRune_width_pos b t
      rw [Map_cons, Map_encodeRune_append]
      rw [ih _ (by simp only [List.length_drop, List.length_cons] at hs ⊢; omega)]
      congr 1
      unfold validRune
      split_ifs with h
      · rw [herr]
        have hv := encodeRune_validRune (f (decodeRune (b :: t)).1)
        unfold validRune at hv
        rw [if_pos h] at hv
        exact hv
      · rw [hidem]

theorem Map_idem (f : Nat → Nat) (hidem : ∀ r, f (f r) = f r) (herr : f RuneError = RuneError)
    (s : GoString) : Map f (Map f s) = Map f s :=
  Map_idem_le f hidem herr s.length s (le_refl _)

theorem asciiLower_lt (c : Nat) (h : c < 0x80) : asciiLower c < 0x80 := by
  unfold asciiLower
  split_ifs <;> omega

theorem Map_ascii (f : Nat → Nat) (hascii : ∀ r, r < 0x80 → f r = asciiLower r) (s : GoString)
    (hs : ∀ c ∈ s, c < 0x80) : Map f s = s.map asciiLower := by
  induction s with
  | nil => rfl
  | cons b t ih =>
    have hb : b < 0x80 := hs b (by simp)
    rw [Map_cons, decodeRune_one b t hb]
    simp only [List.drop_succ_cons, List.drop_zero, List.map_cons]
    rw [ih (fun c hc => hs c (List.mem_cons_of_mem _ hc)), hascii b hb]
    have := asciiLower_lt b hb
    unfold encodeRune
    rw [if_pos (by omega)]
    rfl

theorem ToLower_eq_Map (lower : Nat → Nat) (hascii : ∀ r, r < 0x80 → lower r = asciiLower r)
    (s : GoString) : ToLower lower s = Map lower s := by
  unfold ToLower
  split_ifs with h
  · rw [Map_ascii lower hascii s (by simpa using h)]
  · rfl

theorem ToLower_idem (lower : Nat → Nat) (hidem : ∀ r, lower (lower r) = lower r)
    (herr : lower RuneError = RuneError) (hascii : ∀ r, r < 0x80 → lower r = asciiLower r)
    (s : GoString) : ToLower lower (ToLower lower s) = ToLower lower s := by
  simp only [ToLower_eq_Map lower hascii, Map_idem lower hidem herr]

theorem ToLower_dot (lower : Nat → Nat) (hascii : ∀ r, r < 0x80 → lower r = asciiLower r)
    (s : GoString) : ToLower lower (gs "." ++ s) = gs "." ++ ToLower lower s := by
  simp only [ToLower_eq_Map lower hascii]
  have hdot : gs "." = [0x2E] := by decide
  rw [hdot, List.singleton_append, Map_cons, decodeRune_one _ _ (by omega)]
  simp only [List.drop_succ_cons, List.drop_zero]
  rw [hascii _ (by omega)]
  rfl

theorem formatExt_normal (lower : Nat → Nat) (hidem : ∀ r, lower (lower r) = lower r)
    (herr : lower RuneError = RuneError) (hascii : ∀ r, r < 0x80 → lower r = asciiLower r)
    (ext : GoString) :
    HasPrefix (formatExt lower ext) (gs ".") = true ∧
      ToLower lower (formatExt lower ext) = formatExt lower ext := by
  unfold formatExt
  cases h : HasPrefix (ToLower lower ext) (gs ".")
  · simp only [Bool.not_false, if_true]
    refine ⟨?_, ?_⟩
    · simp [HasPrefix]
    · rw [ToLower_dot lower hascii, ToLower_idem lower hidem herr hascii]
  · simp only [Bool.not_true, Bool.false_eq_true, if_false]
    exact ⟨h, ToLower_idem lower hidem herr hascii ext⟩

/-! ## `NewCli` -/

theorem Parse_positional (f : FlagSet) (dir : GoString) (rest : List GoString)
    (hdir : dir.length < 2 ∨ dir.head? ≠ some 0x2D) :
    Parse f (dir :: rest) = .ok { f with args := dir :: rest } := by
  unfold Parse
  rw [if_pos hdir]

theorem Parse_source_ext (f : FlagSet) (value : GoString) (rest : List GoString) :
    Parse f ((gs "-source_ext=" ++ value) :: rest) = Parse { f with source_ext := value } rest := by
  have e0 : gs "-source_ext=" = [45, 115, 111, 117, 114, 99, 101, 95, 101, 120, 116, 61] := by
    decide
  have e2 : gs "source_ext" = [115, 111, 117, 114, 99, 101, 95, 101, 120, 116] := by decide
  have e4 : gs "--" = [45, 45] := by decide
  rw [e0]
  conv_lhs => unfold Parse
  simp [e2, e4, splitValue, setFlag]

theorem Parse_target_ext (f : FlagSet) (value : GoString) (rest : List GoString) :
    Parse f ((gs "-target_ext=" ++ value) :: rest) = Parse { f with target_ext := value } rest := by
  have e1 : gs "-target_ext=" = [45, 116, 97, 114, 103, 101, 116, 95, 101, 120, 116, 61] := by
    decide
  have e2 : gs "source_ext" = [115, 111, 117, 114, 99, 101, 95, 101, 120, 116] := by decide
  have e3 : gs "target_ext" = [116, 97, 114, 103, 101, 116, 95, 101, 120, 116] := by decide
  have e4 : gs "--" = [45, 45] := by decide
  rw [e1]
  conv_lhs => unfold Parse
  simp [e2, e3, e4, splitValue, setFlag]

theorem latinToLower_fixed (x : Nat) (h1 : ¬ (0x41 ≤ x ∧ x ≤ 0x5A)) (h2 : ¬ (0xC0 ≤ x ∧ x ≤ 0xD6))
    (h3 : ¬ (0xD8 ≤ x ∧ x ≤ 0xDE)) (h4 : x ≠ 0x130) (h5 : x ≠ 0x23A) (h6 : x ≠ 0x212A) :
    latinToLower x = x := by
  unfold latinToLower
  rw [if_neg h1, if_neg h2, if_neg h3, if_neg h4, if_neg h5, if_neg h6]

theorem latinToLower_idem (r : Nat) : latinToLower (latinToLower r) = latinToLower r := by
  apply latinToLower_fixed <;> unfold latinToLower <;> split_ifs <;> omega

theorem latinToLower_ascii (r : Nat) (h : r < 0x80) : latinToLower r = asciiLower r := by
  unfold latinToLower asciiLower
  split_ifs <;> omega

/-- C9. For a rune table that is idempotent, fixes `RuneError` and lower-cases
ASCII as `strings.ToLower` does: `formatExt` maps `ext` to `lower(ext)` when that
starts with a dot and to `"." ++ lower(ext)` otherwise; the extensions stored
by `NewCli` start with a dot and are fixed by `strings.ToLower`; the values of
the options `source_ext` and `target_ext` are stored through `formatExt`; and
without options `SrcExt` is `.jpg`, `TgtExt` is `.png`, with `Dir` the first
positional argument in both cases. -/
theorem NewCli_normalized (lower : Nat → Nat) (hidem : ∀ r, lower (lower r) = lower r)
    (herr : lower RuneError = RuneError) (hascii : ∀ r, r < 0x80 → lower r = asciiLower r) :
    (∀ ext, formatExt lower ext =
        if HasPrefix (ToLower lower ext) (gs ".") then ToLower lower ext
        else gs "." ++ ToLower lower ext) ∧
    (∀ args cli, NewCli lower args = .returned cli →
        HasPrefix cli.SrcExt (gs ".") = true ∧ ToLower lower cli.SrcExt = cli.SrcExt ∧
        HasPrefix cli.TgtExt (gs ".") = true ∧ ToLower lower cli.TgtExt = cli.TgtExt) ∧
    (∀ prog src tgt dir rest, (dir.length < 2 ∨ dir.head? ≠ some 0x2D) →
        NewCli lower (prog :: (gs "-source_ext=" ++ src) :: (gs "-target_ext=" ++ tgt) :: dir :: rest) =
          .returned ⟨dir, formatExt lower src, formatExt lower tgt⟩) ∧
    (∀ prog dir rest, (dir.length < 2 ∨ dir.head? ≠ some 0x2D) →
        NewCli lower (prog :: dir :: rest) = .returned ⟨dir, gs ".jpg", gs ".png"⟩) := by
  refine ⟨?_, ?_, ?_, ?_⟩
  · intro ext
    unfold formatExt
    cases HasPrefix (ToLower lower ext) (gs ".") <;> simp
  · intro args cli h
    unfold NewCli at h
    cases args with
    | nil => simp at h
    | cons prog rest =>
      simp only [] at h
      cases hp : Parse ⟨gs "jpg", gs "png", []⟩ rest with
      | error code => rw [hp] at h; simp at h
      | ok f =>
        rw [hp] at h
        simp only [Outcome.returned.injEq] at h
        subst h
        exact ⟨(formatExt_normal lower hidem herr hascii _).1,
          (formatExt_normal lower hidem herr hascii _).2,
          (formatExt_normal lower hidem herr hascii _).1,
          (formatExt_normal lower hidem herr hascii _).2⟩
  · intro prog src tgt dir rest hdir
    simp only [NewCli, Parse_source_ext, Parse_target_ext, Parse_positional _ _ _ hdir,
      List.headD_cons]
  · intro prog dir rest hdir
    simp only [NewCli, Parse_positional _ _ _ hdir, List.headD_cons]
    have hj : formatExt lower (gs "jpg") = gs ".jpg" := by
      unfold formatExt
      rw [ToLower_eq_Map lower hascii, Map_ascii lower hascii _ (by decide)]
      decide
    have hp : formatExt lower (gs "png") = gs ".png" := by
      unfold formatExt
      rw [ToLower_eq_Map lower hascii, Map_ascii lower hascii _ (by decide)]
      decide
    rw [hj, hp]

/-- Witness of C9: the Latin fragment of the rune table meets the three conditions,
and `imgconv -source_ext=JPG -target_ext=.Png photos` stores both extensions
through `formatExt`. -/
theorem NewCli_normalized_witness :
    (∀ r, latinToLower (latinToLower r) = latinToLower r) ∧
    latinToLower RuneError = RuneError ∧
    (∀ r, r < 0x80 → latinToLower r = asciiLower r) ∧
    NewCli latinToLower [gs "imgconv", gs "-source_ext=" ++ gs "JPG", gs "-target_ext=" ++ gs ".Png",
        gs "photos"] = .returned ⟨gs "photos", formatExt latinToLower (gs "JPG"),
          formatExt latinToLower (gs ".Png")⟩ :=
  ⟨latinToLower_idem, by decide, latinToLower_ascii,
    (NewCli_normalized latinToLower latinToLower_idem (by decide) latinToLower_ascii).2.2.1
      (gs "imgconv") (gs "JPG") (gs ".Png") (gs "photos") [] (by decide)⟩

/-! ## The source path of a matched file -/

theorem extFrom_suffix (rev acc : GoString) : extFrom rev acc <:+ rev.reverse ++ acc := by
  induction rev generalizing acc with
  | nil => exact List.nil_suffix
  | cons c rev ih =>
    unfold extFrom
    split_ifs with h1 h2
    · exact List.nil_suffix
    · simp only [List.reverse_cons, List.append_assoc, List.singleton_append]
      exact List.suffix_append _ _
    · simp only [List.reverse_cons, List.append_assoc, List.singleton_append]
      exact ih (c :: acc)

theorem Ext_suffix (path : GoString) : Ext path <:+ path := by
  have h := extFrom_suffix path.reverse []
  simpa [Ext] using h

theorem mem_specMatchedFiles {lower : Nat → Nat} {cli : Cli} {vs : List Visit} {rel : GoString}
    (h : rel ∈ specMatchedFiles lower cli vs) :
    ∃ v ∈ vs, v.info = some ⟨false⟩ ∧ Rel cli.Dir v.path = (rel, none) ∧
      ToLower lower (Ext rel) = cli.SrcExt := by
  unfold specMatchedFiles at h
  obtain ⟨v, hv, rfl⟩ := List.mem_map.mp h
  obtain ⟨hmem, hcond⟩ := List.mem_filter.mp hv
  simp only [decide_eq_true_eq] at hcond
  exact ⟨v, hmem, hcond.1, Prod.ext rfl hcond.2.1, hcond.2.2⟩

theorem traverseImageFiles_ok {lower : Nat → Nat} {cli : Cli} {fs : Node}
    {files : List GoString} {err : Option GoError}
    (h : traverseImageFiles lower cli fs = .ok (files, err)) :
    files = specMatchedFiles lower cli (visits cli.Dir fs) ∧ err = none := by
  rw [traverseImageFiles_eq] at h
  split_ifs at h
  simp only [Except.ok.injEq, Prod.mk.injEq] at h
  exact ⟨h.1.symm, h.2.symm⟩

/-- C5, as amended. Every relative path returned by `traverseImageFiles` gives a
source path `Dir + "/" + relPath` that ends with `filepath.Ext(relPath)`, a suffix
whose lower-cased form is `SrcExt`; the source path ends with `SrcExt` itself
when that suffix is already lower-case, and the slice of the target path
computation removes exactly that suffix when it is as long as `SrcExt`. -/
theorem traverseImageFiles_suffix (lower : Nat → Nat) (cli : Cli) (fs : Node)
    (files : List GoString) (err : Option GoError) (rel : GoString)
    (h : traverseImageFiles lower cli fs = .ok (files, err)) (hrel : rel ∈ files) :
    HasSuffix (oldFileName cli rel) (Ext rel) = true ∧
    ToLower lower (Ext rel) = cli.SrcExt ∧
    (ToLower lower (Ext rel) = Ext rel → HasSuffix (oldFileName cli rel) cli.SrcExt = true) ∧
    ((Ext rel).length = cli.SrcExt.length → ∀ p, oldFileName cli rel = p ++ Ext rel →
      newFileName cli rel = p ++ cli.TgtExt) := by
  obtain ⟨hfiles, _⟩ := traverseImageFiles_ok h
  rw [hfiles] at hrel
  obtain ⟨v, _, _, _, hext⟩ := mem_specMatchedFiles hrel
  have hsuf : HasSuffix (oldFileName cli rel) (Ext rel) = true := by
    unfold HasSuffix oldFileName
    rw [List.isSuffixOf_iff_suffix]
    exact (Ext_suffix rel).trans (List.suffix_append _ _)
  refine ⟨hsuf, hext, ?_, ?_⟩
  · intro hfix
    rw [← hext, hfix]
    exact hsuf
  · intro hlen p hp
    unfold newFileName
    rw [← hlen, hp]
    simp

/-! ## A root that cannot be read -/

theorem step_no_goroutine {κ ρ : Type} (zero : ρ) (work : Nat → Except Panic (κ × ρ)) (i : Nat) :
    step zero work (⟨⟨none, 0, 0⟩, [], [], [], none⟩ : Pool κ ρ) i =
      ⟨⟨none, 0, 0⟩, [], [], [], none⟩ := by
  simp [step]

theorem runPool_zero {κ ρ : Type} (zero : ρ) (work : Nat → Except Panic (κ × ρ))
    (sched : List Nat) :
    runPool zero work 0 sched = ⟨⟨none, 0, 0⟩, [], [], [], none⟩ := by
  unfold runPool finish
  simp only [List.range_zero, List.foldl_nil, List.replicate_zero]
  induction sched with
  | nil => rfl
  | cons i sched ih => rw [List.foldl_cons, step_no_goroutine, ih]

/-- C8. At a root directory whose entries cannot be read, `traverseImageFiles`
returns no file and a nil error, and `DirConv` returns an empty list of results
under every schedule; at a root on which `Lstat` fails the function passed to
`filepath.Walk` panics on the nil `info`. -/
theorem DirConv_unreadable_root (lower : Nat → Nat)
    (convert : GoString → GoString → Option GoError) (sched : List Nat) :
    traverseImageFiles lower ⟨gs "d", gs ".jpg", gs ".png"⟩ .dirNoRead = .ok ([], none) ∧
    DirConv lower convert ⟨gs "d", gs ".jpg", gs ".png"⟩ .dirNoRead sched = ⟨[], .returned []⟩ ∧
    traverseImageFiles lower ⟨gs "d", gs ".jpg", gs ".png"⟩ .noStat = .error .nilDereference ∧
    DirConv lower convert ⟨gs "d", gs ".jpg", gs ".png"⟩ .noStat sched =
      ⟨[], .panicked .nilDereference⟩ := by
  refine ⟨rfl, ?_, rfl, rfl⟩
  rw [DirConv_eq_of_files lower convert ⟨gs "d", gs ".jpg", gs ".png"⟩ .dirNoRead sched []
    (by decide) rfl]
  simp [goroutines, runPool_zero, Pool.elems, Slice.elems]

/-- The error result of `traverseImageFiles` is nil whenever it returns: the
function passed to `filepath.Walk` returns nil for every entry. -/
theorem traverseImageFiles_err_nil (lower : Nat → Nat) (cli : Cli) (fs : Node)
    (files : List GoString) (err : Option GoError)
    (h : traverseImageFiles lower cli fs = .ok (files, err)) : err = none :=
  (traverseImageFiles_ok h).2

/-! ## Goroutines that run one after the other -/

theorem get_middle {α : Type} (a b : List α) (x : α) : (a ++ x :: b).get? a.length = some x := by
  induction a with
  | nil => rfl
  | cons c a ih => simpa using ih

theorem set_middle {α : Type} (a b : List α) (x y : α) :
    (a ++ x :: b).set a.length y = a ++ y :: b := by
  induction a with
  | nil => rfl
  | cons c a ih => simp [ih]

theorem step_ready {κ ρ : Type} (zero : ρ) (work : Nat → Except Panic (κ × ρ)) (k : κ) (r : ρ)
    (results : Slice) (arrays : List (List ρ)) (calls : List κ) (a b : List (Phase ρ))
    (hw : work a.length = .ok (k, r)) :
    step zero work ⟨results, arrays, calls, a ++ .ready :: b, none⟩ a.length =
      ⟨results, arrays, calls ++ [k], a ++ .computed r :: b, none⟩ := by
  unfold step
  simp only [Option.isSome_none, Bool.false_eq_true, if_false, get_middle, hw, set_middle]

theorem step_computed {κ ρ : Type} (zero : ρ) (work : Nat → Except Panic (κ × ρ)) (r : ρ)
    (results : Slice) (arrays : List (List ρ)) (calls : List κ) (a b : List (Phase ρ)) :
    step zero work ⟨results, arrays, calls, a ++ .computed r :: b, none⟩ a.length =
      ⟨results, arrays, calls, a ++ .loaded results r :: b, none⟩ := by
  unfold step
  simp only [Option.isSome_none, Bool.false_eq_true, if_false, get_middle, set_middle]

theorem step_loaded_fits {κ ρ : Type} (zero : ρ) (work : Nat → Except Panic (κ × ρ)) (r : ρ)
    (results seen : Slice) (arrays : List (List ρ)) (calls : List κ) (a b : List (Phase ρ))
    (h : seen.len + 1 ≤ seen.cap) :
    step zero work ⟨results, arrays, calls, a ++ .loaded seen r :: b, none⟩ a.length =
      ⟨⟨seen.ptr, seen.len + 1, seen.cap⟩, arrays, calls,
        a ++ .stored seen.ptr seen.len r :: b, none⟩ := by
  unfold step
  simp only [Option.isSome_none, Bool.false_eq_true, if_false, get_middle, set_middle, if_pos h]

theorem step_loaded_full {κ ρ : Type} (zero : ρ) (work : Nat → Except Panic (κ × ρ)) (r : ρ)
    (results seen : Slice) (arrays : List (List ρ)) (calls : List κ) (a b : List (Phase ρ))
    (h : ¬ seen.len + 1 ≤ seen.cap) :
    step zero work ⟨results, arrays, calls, a ++ .loaded seen r :: b, none⟩ a.length =
      ⟨⟨some arrays.length, seen.len + 1, growCap seen.cap (seen.len + 1)⟩,
        arrays ++ [grown zero arrays seen], calls,
        a ++ .stored (some arrays.length) seen.len r :: b, none⟩ := by
  unfold step
  simp only [Option.isSome_none, Bool.false_eq_true, if_false, get_middle, set_middle, if_neg h]

theorem step_stored {κ ρ : Type} (zero : ρ) (work : Nat → Except Panic (κ × ρ)) (r : ρ)
    (results : Slice) (p slot : Nat) (arrays : List (List ρ)) (calls : List κ)
    (a b : List (Phase ρ)) :
    step zero work ⟨results, arrays, calls, a ++ .stored (some p) slot r :: b, none⟩ a.length =
      ⟨results, arrays.set p ((arrays.getD p []).set slot r), calls, a ++ .done :: b, none⟩ := by
  unfold step
  simp only [Option.isSome_none, Bool.false_eq_true, if_false, get_middle, set_middle]

theorem growCap_ge (oldCap newLen : Nat) : newLen ≤ growCap oldCap newLen := by
  unfold growCap
  split_ifs <;> omega

theorem take_set_succ {α : Type} (l : List α) (n : Nat) (x : α) (h : n < l.length) :
    (l.set n x).take (n + 1) = l.take n ++ [x] := by
  induction l generalizing n with
  | nil => simp at h
  | cons c l ih =>
    cases n with
    | zero => simp
    | succ n =>
      simp only [List.length_cons, Nat.add_lt_add_iff_right] at h
      simp [ih n h]

/-- A goroutine that runs from its start to its end while no other goroutine
takes a step appends its result to `results`: the call is made, the elements
of `results` are the elements there were followed by the result, and the
header fits its array again. -/
theorem runToEnd_ready {κ ρ : Type} (zero : ρ) (work : Nat → Except Panic (κ × ρ)) (i : Nat)
    (k : κ) (r : ρ) (hw : work i = .ok (k, r)) (results : Slice) (arrays : List (List ρ))
    (calls : List κ) (a b : List (Phase ρ)) (ha : a.length = i)
    (hfit : (⟨results, arrays, calls, a ++ .ready :: b, none⟩ : Pool κ ρ).Fits) :
    ∃ results1 arrays1,
      runToEnd zero work ⟨results, arrays, calls, a ++ .ready :: b, none⟩ i =
        ⟨results1, arrays1, calls ++ [k], a ++ .done :: b, none⟩ ∧
      (⟨results1, arrays1, calls ++ [k], a ++ .done :: b, none⟩ : Pool κ ρ).elems =
        (⟨results, arrays, calls, a ++ .ready :: b, none⟩ : Pool κ ρ).elems ++ [r] ∧
      (⟨results1, arrays1, calls ++ [k], a ++ .done :: b, none⟩ : Pool κ ρ).Fits := by
  subst ha
  unfold runToEnd
  rw [step_ready zero work k r results arrays calls a b hw, step_computed]
  obtain ⟨ptr, len, cap⟩ := results
  by_cases hcap : len + 1 ≤ cap
  · rw [step_loaded_fits zero work r _ ⟨ptr, len, cap⟩ _ _ _ _ hcap]
    cases ptr with
    | none =>
      simp only [Pool.Fits] at hfit
      omega
    | some p =>
      simp only [Pool.Fits] at hfit
      obtain ⟨hp, hlen, hle⟩ := hfit
      rw [step_stored]
      refine ⟨_, _, rfl, ?_, ?_⟩
      · simp only [Pool.elems, Slice.elems]
        rw [List.getD_eq_getElem _ _ (by simpa using hp)]
        simp only [List.getElem_set_self]
        exact take_set_succ _ _ _ (by omega)
      · simp only [Pool.Fits]
        refine ⟨by simpa using hp, ?_, hcap⟩
        rw [List.getD_eq_getElem _ _ (by simpa using hp)]
        simp only [List.getElem_set_self, List.length_set]
        exact hlen
  · rw [step_loaded_full zero work r _ ⟨ptr, len, cap⟩ _ _ _ _ hcap, step_stored]
    have hge := growCap_ge cap (len + 1)
    have helems : ((⟨ptr, len, cap⟩ : Slice).elems arrays).length = len := by
      cases ptr with
      | none =>
        simp only [Pool.Fits] at hfit
        simp [Slice.elems, hfit.1]
      | some p =>
        simp only [Pool.Fits] at hfit
        simp only [Slice.elems, List.length_take]
        omega
    have hnew : (arrays ++ [grown zero arrays ⟨ptr, len, cap⟩]).getD arrays.length [] =
        grown zero arrays ⟨ptr, len, cap⟩ := by
      simp [List.getD_eq_getElem?_getD]
    have hset : (arrays ++ [grown zero arrays ⟨ptr, len, cap⟩]).set arrays.length
        ((grown zero arrays ⟨ptr, len, cap⟩).set len r) =
        arrays ++ [(grown zero arrays ⟨ptr, len, cap⟩).set len r] := by
      simp
    have hglen : (grown zero arrays ⟨ptr, len, cap⟩).length = growCap cap (len + 1) := by
      unfold grown
      simp only [List.length_append, List.length_replicate, helems]
      omega
    rw [hnew, hset]
    refine ⟨_, _, rfl, ?_, ?_⟩
    · simp only [Pool.elems]
      have hget : (arrays ++ [(grown zero arrays ⟨ptr, len, cap⟩).set len r]).getD
          arrays.length [] = (grown zero arrays ⟨ptr, len, cap⟩).set len r := by
        simp [List.getD_eq_getElem?_getD]
      have hel : (⟨some arrays.length, len + 1, growCap cap (len + 1)⟩ : Slice).elems
          (arrays ++ [(grown zero arrays ⟨ptr, len, cap⟩).set len r]) =
          ((grown zero arrays ⟨ptr, len, cap⟩).set len r).take (len + 1) := by
        simp only [Slice.elems]
        rw [hget]
      rw [hel, take_set_succ _ _ _ (by omega)]
      congr 1
      unfold grown
      rw [List.take_append_of_le_length (by omega)]
      exact List.take_of_length_le (by omega)
    · simp only [Pool.Fits]
      refine ⟨by simp, ?_, hge⟩
      have hget : (arrays ++ [(grown zero arrays ⟨ptr, len, cap⟩).set len r]).getD
          arrays.length [] = (grown zero arrays ⟨ptr, len, cap⟩).set len r := by
        simp [List.getD_eq_getElem?_getD]
      rw [hget, List.length_set, hglen]

theorem finish_serial {κ ρ : Type} (zero : ρ) (work : Nat → Except Panic (κ × ρ))
    (g : Nat → κ × ρ) (n : Nat) (hw : ∀ i, i < n → work i = .ok (g i)) (m : Nat) (hm : m ≤ n) :
    (finish zero work m ⟨⟨none, 0, 0⟩, [], [], List.replicate n .ready, none⟩).calls =
        (List.range m).map (fun i => (g i).1) ∧
      (finish zero work m ⟨⟨none, 0, 0⟩, [], [], List.replicate n .ready, none⟩).phases =
        List.replicate m .done ++ List.replicate (n - m) .ready ∧
      (finish zero work m ⟨⟨none, 0, 0⟩, [], [], List.replicate n .ready, none⟩).crashed = none ∧
      (finish zero work m ⟨⟨none, 0, 0⟩, [], [], List.replicate n .ready, none⟩).elems =
        (List.range m).map (fun i => (g i).2) ∧
      (finish zero work m ⟨⟨none, 0, 0⟩, [], [], List.replicate n .ready, none⟩).Fits := by
  induction m with
  | zero => simp [finish, Pool.elems, Slice.elems, Pool.Fits]
  | succ m ih =>
    have hstep : finish zero work (m + 1) ⟨⟨none, 0, 0⟩, [], [], List.replicate n .ready, none⟩ =
        runToEnd zero work
          (finish zero work m ⟨⟨none, 0, 0⟩, [], [], List.replicate n .ready, none⟩) m := by
      unfold finish
      rw [List.range_succ, List.foldl_append]
      rfl
    rw [hstep]
    obtain ⟨hcalls, hphases, hcrashed, helems, hfits⟩ := ih (by omega)
    generalize finish zero work m ⟨⟨none, 0, 0⟩, [], [], List.replicate n .ready, none⟩ = st
      at hcalls hphases hcrashed helems hfits
    obtain ⟨results, arrays, calls, phases, crashed⟩ := st
    simp only at hcalls hphases hcrashed
    have hsplit : List.replicate (n - m) (Phase.ready : Phase ρ) =
        .ready :: List.replicate (n - (m + 1)) .ready := by
      rw [← List.replicate_succ]
      congr 1
      omega
    rw [hsplit] at hphases
    subst hcalls hphases hcrashed
    obtain ⟨results1, arrays1, hrun, hel, hfit⟩ :=
      runToEnd_ready zero work m (g m).1 (g m).2 (hw m (by omega)) results arrays
        ((List.range m).map (fun i => (g i).1)) (List.replicate m .done)
        (List.replicate (n - (m + 1)) .ready) (by simp) hfits
    rw [hrun]
    refine ⟨?_, ?_, rfl, ?_, hfit⟩
    · simp [List.range_succ]
    · simp [List.replicate_succ']
    · rw [hel, helems]
      simp [List.range_succ]

theorem runPool_serial {κ ρ : Type} (zero : ρ) (work : Nat → Except Panic (κ × ρ))
    (g : Nat → κ × ρ) (n : Nat) (hw : ∀ i, i < n → work i = .ok (g i)) :
    (runPool zero work n []).calls = (List.range n).map (fun i => (g i).1) ∧
      (runPool zero work n []).crashed = none ∧
      (runPool zero work n []).elems = (List.range n).map (fun i => (g i).2) := by
  unfold runPool
  rw [List.foldl_nil]
  obtain ⟨h1, _, h3, h4, _⟩ := finish_serial zero work g n hw n (le_refl n)
  exact ⟨h1, h3, h4⟩

/-- When the goroutines run one after the other (the empty schedule) and every
slice expression is in range, `DirConv` calls the converter once per matched
file and returns one result per matched file, in the order of the files, with
`Index` the position of the file. -/
theorem DirConv_serial (lower : Nat → Nat) (convert : GoString → GoString → Option GoError)
    (cli : Cli) (fs : Node) (files : List GoString) (hdir : cli.Dir ≠ [])
    (hfiles : traverseImageFiles lower cli fs = .ok (files, none))
    (hrange : ∀ val ∈ files, cli.SrcExt.length ≤ (oldFileName cli val).length) :
    DirConv lower convert cli fs [] =
      ⟨(List.range files.length).map
          (fun i => (oldFileName cli (files.getD i []), newFileName cli (files.getD i []))),
        .returned ((List.range files.length).map (fun i => ⟨i, files.getD i [],
          (convert (oldFileName cli (files.getD i []))
            (newFileName cli (files.getD i []))).isNone⟩))⟩ := by
  rw [DirConv_eq_of_files lower convert cli fs [] files hdir hfiles]
  unfold goroutines
  obtain ⟨h1, h2, h3⟩ := runPool_serial (⟨0, [], false⟩ : Result)
    (fun i => worker convert cli i (files.getD i []))
    (fun i => ((oldFileName cli (files.getD i []),
      newFileName cli (files.getD i [])), ⟨i, files.getD i [],
      (convert (oldFileName cli (files.getD i []))
        (newFileName cli (files.getD i []))).isNone⟩)) files.length (by
      intro i hi
      have hle : cli.SrcExt.length ≤ (oldFileName cli (files.getD i [])).length := by
        apply hrange
        rw [List.getD_eq_getElem _ _ hi]
        exact List.getElem_mem hi
      simp only [worker, if_pos hle])
  rw [h1, h2, h3]

/-! ## The examples of the specification, and schedules with a race -/

/-- The example of the specification: in the tree `a.jpg, sub/b.jpg, sub/c.png`
the files with extension `.jpg` are `a.jpg` and `sub/b.jpg`; a directory called
`x.jpg` is not among the files. -/
theorem traverseImageFiles_example :
    traverseImageFiles latinToLower exampleCli exampleTree =
      .ok ([gs "a.jpg", gs "sub/b.jpg"], none) ∧
    traverseImageFiles latinToLower exampleCli
      (.dir [(gs "x.jpg", .dir [(gs "B.Jpg", .file)])]) = .ok ([gs "x.jpg/B.Jpg"], none) := by
  decide

/-- Witness of C4: the call for `a.jpg` in the directory `d`. -/
theorem DirConv_target_path_witness :
    (gs "d/a.jpg", gs "d/a.png") ∈
        (DirConv latinToLower convertOk exampleCli exampleTree []).calls ∧
      gs "d/a.jpg" = gs "d/a" ++ exampleCli.SrcExt ∧
      gs "d/a.png" = gs "d/a" ++ exampleCli.TgtExt :=
  ⟨by decide, by decide,
    (DirConv_target_path latinToLower convertOk exampleCli exampleTree [] (gs "d/a.jpg")
      (gs "d/a.png") (gs "d/a") (by decide) (by decide)).1⟩

/-- C5, as stated, fails: the file `A.JPG` is matched for `SrcExt = ".jpg"`, and
its source path `d/A.JPG` does not end with `.jpg`. -/
theorem source_path_not_suffix :
    traverseImageFiles latinToLower exampleCli upperCaseFile = .ok ([gs "A.JPG"], none) ∧
    HasSuffix (oldFileName exampleCli (gs "A.JPG")) exampleCli.SrcExt = false := by
  decide

/-- Witness of C5 as amended: the file `A.JPG`, matched for `.jpg`. -/
theorem traverseImageFiles_suffix_witness :
    traverseImageFiles latinToLower exampleCli upperCaseFile = .ok ([gs "A.JPG"], none) ∧
      gs "A.JPG" ∈ [gs "A.JPG"] ∧
      HasSuffix (oldFileName exampleCli (gs "A.JPG")) (Ext (gs "A.JPG")) = true ∧
      ToLower latinToLower (Ext (gs "A.JPG")) = exampleCli.SrcExt :=
  ⟨by decide, by decide,
    (traverseImageFiles_suffix latinToLower exampleCli upperCaseFile [gs "A.JPG"] none
      (gs "A.JPG") (by decide) (by decide)).1,
    (traverseImageFiles_suffix latinToLower exampleCli upperCaseFile [gs "A.JPG"] none
      (gs "A.JPG") (by decide) (by decide)).2.1⟩

/-- The example of the specification for a failing converter, for goroutines
that run one after the other: three matched files, the converter fails on
`b.jpg` only; three results are returned, one of them with `IsOk` false. -/
theorem DirConv_one_failure :
    DirConv latinToLower convertFailB exampleCli threeFiles [] =
      ⟨[(gs "d/a.jpg", gs "d/a.png"), (gs "d/b.jpg", gs "d/b.png"),
          (gs "d/c.jpg", gs "d/c.png")],
        .returned [⟨0, gs "a.jpg", true⟩, ⟨1, gs "b.jpg", false⟩, ⟨2, gs "c.jpg", true⟩]⟩ := by
  decide

/-- C3. In a directory that holds the file `a.jpg` and an entry on which
`os.Lstat` fails, the function passed to `filepath.Walk` gets a nil `info` for
that entry and panics at `info.IsDir()`: `traverseImageFiles` returns nothing
and `DirConv` dies under every schedule, although the visited entry `a.jpg` is
not a directory and has the extension `SrcExt`, and is returned when the other
entry is not there. -/
theorem traverseImageFiles_lstat_panic (lower : Nat → Nat)
    (convert : GoString → GoString → Option GoError) (sched : List Nat) :
    traverseImageFiles lower exampleCli vanishedEntry = .error .nilDereference ∧
    DirConv lower convert exampleCli vanishedEntry sched = ⟨[], .panicked .nilDereference⟩ ∧
    specMatchedFiles lower exampleCli (visits exampleCli.Dir vanishedEntry) = [gs "a.jpg"] ∧
    traverseImageFiles lower exampleCli (.dir [(gs "a.jpg", .file)]) =
      .ok ([gs "a.jpg"], none) :=
  ⟨rfl, rfl, rfl, rfl⟩

/-- C6. With the two matched files `a.jpg` and `b.jpg` and a converter that
never fails: goroutine 1 writes the new header of `results` and, before it
writes its element, goroutine 0 appends to the slice it reads; `DirConv` then
returns two results, the first of them the zero value of `Result`, with `IsOk`
false, though every call of the converter returned nil. -/
theorem DirConv_zero_result :
    DirConv latinToLower convertOk exampleCli twoFiles [1, 1, 1, 0, 0, 0, 0] =
      ⟨[(gs "d/b.jpg", gs "d/b.png"), (gs "d/a.jpg", gs "d/a.png")],
        .returned [⟨0, [], false⟩, ⟨0, gs "a.jpg", true⟩]⟩ ∧
    ∀ src tgt, convertOk src tgt = none :=
  ⟨by decide, fun _ _ => rfl⟩

/-- C7. With two matched files and no lock around `results = append(results, r)`:
when the goroutines run one after the other both results are returned, and when
both goroutines read `results` before either writes it back, the result of the
first goroutine is lost. -/
theorem DirConv_lost_append :
    DirConv latinToLower convertOk exampleCli twoFiles [] =
      ⟨[(gs "d/a.jpg", gs "d/a.png"), (gs "d/b.jpg", gs "d/b.png")],
        .returned [⟨0, gs "a.jpg", true⟩, ⟨1, gs "b.jpg", true⟩]⟩ ∧
    DirConv latinToLower convertOk exampleCli twoFiles [0, 0, 1, 1] =
      ⟨[(gs "d/a.jpg", gs "d/a.png"), (gs "d/b.jpg", gs "d/b.png")],
        .returned [⟨1, gs "b.jpg", true⟩]⟩ := by
  decide

/-- C1. In the tree `a.jpg, sub/b.jpg, sub/c.png` two entries match `.jpg`, and
under the schedule in which both goroutines read `results` before either
writes it back `DirConv` returns one result. -/
theorem DirConv_count_race :
    (specMatchedTree latinToLower exampleCli exampleTree).length = 2 ∧
    DirConv latinToLower convertOk exampleCli exampleTree [0, 0, 1, 1] =
      ⟨[(gs "d/a.jpg", gs "d/a.png"), (gs "d/sub/b.jpg", gs "d/sub/b.png")],
        .returned [⟨1, gs "sub/b.jpg", true⟩]⟩ := by
  decide

/-- C2. With the three matched files `a.jpg`, `b.jpg`, `c.jpg` and a schedule in
which the first two goroutines read `results` before either writes it back, the
returned results carry the indices 1 and 2 only, which is not a permutation of
0, 1, 2. -/
theorem DirConv_index_gap :
    traverseImageFiles latinToLower exampleCli threeFiles =
      .ok ([gs "a.jpg", gs "b.jpg", gs "c.jpg"], none) ∧
    (DirConv latinToLower convertOk exampleCli threeFiles [0, 0, 1, 1, 0, 1]).outcome =
      .returned [⟨1, gs "b.jpg", true⟩, ⟨2, gs "c.jpg", true⟩] ∧
    ¬ List.Perm [1, 2] (List.range 3) := by
  decide

/-- C10. The file named by a dot and three times U+023A has the lower-cased
extension of `strokeCli`, which `NewCli` builds from `-source_ext`; its source
path has 9 bytes and `SrcExt` has 10, so the slice expression of `DirConv` has
a negative bound and the run panics before any conversion. -/
theorem DirConv_slice_panic :
    NewCli latinToLower [gs "imgconv", gs "-source_ext=\u023A\u023A\u023A", gs "d"] =
      .returned strokeCli ∧
    traverseImageFiles latinToLower strokeCli strokeFile =
      .ok ([gs ".\u023A\u023A\u023A"], none) ∧
    (oldFileName strokeCli (gs ".\u023A\u023A\u023A")).length = 9 ∧
    strokeCli.SrcExt.length = 10 ∧
    DirConv latinToLower convertOk strokeCli strokeFile [] = ⟨[], .panicked .sliceBounds⟩ := by
  decide

/-! ## Every goroutine runs to its end -/

theorem step_crashed {κ ρ : Type} (zero : ρ) (work : Nat → Except Panic (κ × ρ)) (st : Pool κ ρ)
    (i : Nat) (h : (step zero work st i).crashed = none) : st.crashed = none := by
  unfold step at h
  split at h
  · exact h
  · rename_i hc
    simpa using hc

theorem step_length {κ ρ : Type} (zero : ρ) (work : Nat → Except Panic (κ × ρ)) (st : Pool κ ρ)
    (i : Nat) : (step zero work st i).phases.length = st.phases.length := by
  unfold step
  split
  · rfl
  · split <;> (try split) <;> simp

theorem step_done {κ ρ : Type} (zero : ρ) (work : Nat → Except Panic (κ × ρ)) (st : Pool κ ρ)
    (i j : Nat) (h : st.phases[i]? = some .done) :
    (step zero work st j).phases[i]? = some .done := by
  unfold step
  split
  · exact h
  · by_cases hij : j = i
    · subst hij
      rw [List.get?_eq_getElem?, h]
      exact h
    · split <;> (try split) <;> first
        | exact h
        | (simp only [List.getElem?_set_ne hij]
           exact h)

theorem step_started {κ ρ : Type} (zero : ρ) (work : Nat → Except Panic (κ × ρ)) (st : Pool κ ρ)
    (j : Nat) (h : st.Started work) : (step zero work st j).Started work := by
  have keep : ∀ ph0 ph1 : Phase ρ, st.phases[j]? = some ph0 → ph0 ≠ .ready →
      ∀ i ph, (st.phases.set j ph1)[i]? = some ph → ph ≠ .ready →
        ∃ k r, work i = .ok (k, r) ∧ k ∈ st.calls := by
    intro ph0 ph1 hget hne0 i ph hi hne
    by_cases hij : j = i
    · subst hij
      exact h j _ hget hne0
    · simp only [List.getElem?_set_ne hij] at hi
      exact h i ph hi hne
  unfold step
  split
  · exact h
  · split
    · exact h
    · rename_i hget
      rw [List.get?_eq_getElem?] at hget
      split
      · exact h
      · rename_i k r hw
        intro i ph hi hne
        by_cases hij : j = i
        · subst hij
          exact ⟨k, r, hw, by simp⟩
        · simp only [List.getElem?_set_ne hij] at hi
          obtain ⟨k1, r1, h1, hm⟩ := h i ph hi hne
          exact ⟨k1, r1, h1, List.mem_append_left _ hm⟩
    · rename_i r hget
      rw [List.get?_eq_getElem?] at hget
      exact keep _ _ hget (by simp)
    · rename_i seen r hget
      rw [List.get?_eq_getElem?] at hget
      split
      · exact keep _ _ hget (by simp)
      · exact keep _ _ hget (by simp)
    · exact h
    · rename_i a slot r hget
      rw [List.get?_eq_getElem?] at hget
      exact keep _ _ hget (by simp)
    · exact h

theorem step_at_done {κ ρ : Type} (zero : ρ) (work : Nat → Except Panic (κ × ρ)) (st : Pool κ ρ)
    (i : Nat) (h : st.phases[i]? = some .done) : step zero work st i = st := by
  unfold step
  split
  · rfl
  · rw [List.get?_eq_getElem?, h]

theorem step_at_stored {κ ρ : Type} (zero : ρ) (work : Nat → Except Panic (κ × ρ))
    (st : Pool κ ρ) (i : Nat) (a : Option Nat) (slot : Nat) (r : ρ)
    (h : st.phases[i]? = some (.stored a slot r)) (hc : (step zero work st i).crashed = none) :
    (step zero work st i).phases[i]? = some .done := by
  have hi : i < st.phases.length := (List.getElem?_eq_some_iff.mp h).1
  have hc0 := step_crashed zero work st i hc
  unfold step at hc ⊢
  rw [hc0] at hc ⊢
  simp only [Option.isSome_none, Bool.false_eq_true, if_false, List.get?_eq_getElem?, h] at hc ⊢
  cases a with
  | none => simp at hc
  | some a => simp [hi]

theorem step_at_loaded {κ ρ : Type} (zero : ρ) (work : Nat → Except Panic (κ × ρ))
    (st : Pool κ ρ) (i : Nat) (seen : Slice) (r : ρ)
    (h : st.phases[i]? = some (.loaded seen r)) (hc : st.crashed = none) :
    ∃ a slot, (step zero work st i).phases[i]? = some (.stored a slot r) := by
  have hi : i < st.phases.length := (List.getElem?_eq_some_iff.mp h).1
  unfold step
  rw [hc]
  simp only [Option.isSome_none, Bool.false_eq_true, if_false, List.get?_eq_getElem?, h]
  split
  · exact ⟨_, _, List.getElem?_set_self hi⟩
  · exact ⟨_, _, List.getElem?_set_self hi⟩

theorem step_at_computed {κ ρ : Type} (zero : ρ) (work : Nat → Except Panic (κ × ρ))
    (st : Pool κ ρ) (i : Nat) (r : ρ)
    (h : st.phases[i]? = some (.computed r)) (hc : st.crashed = none) :
    ∃ seen, (step zero work st i).phases[i]? = some (.loaded seen r) := by
  have hi : i < st.phases.length := (List.getElem?_eq_some_iff.mp h).1
  unfold step
  rw [hc]
  simp only [Option.isSome_none, Bool.false_eq_true, if_false, List.get?_eq_getElem?, h]
  exact ⟨_, List.getElem?_set_self hi⟩

theorem step_at_ready {κ ρ : Type} (zero : ρ) (work : Nat → Except Panic (κ × ρ))
    (st : Pool κ ρ) (i : Nat)
    (h : st.phases[i]? = some .ready) (hc : (step zero work st i).crashed = none) :
    ∃ r, (step zero work st i).phases[i]? = some (.computed r) := by
  have hi : i < st.phases.length := (List.getElem?_eq_some_iff.mp h).1
  have hc0 := step_crashed zero work st i hc
  unfold step at hc ⊢
  rw [hc0] at hc ⊢
  simp only [Option.isSome_none, Bool.false_eq_true, if_false, List.get?_eq_getElem?, h] at hc ⊢
  cases hw : work i with
  | error p =>
    rw [hw] at hc
    simp at hc
  | ok kr =>
    obtain ⟨k, r⟩ := kr
    exact ⟨r, List.getElem?_set_self hi⟩

/-- After four steps of goroutine `i` that leave the process alive, the
goroutine is done. -/
theorem runToEnd_done {κ ρ : Type} (zero : ρ) (work : Nat → Except Panic (κ × ρ))
    (st : Pool κ ρ) (i : Nat) (hi : i < st.phases.length)
    (h : (runToEnd zero work st i).crashed = none) :
    (runToEnd zero work st i).phases[i]? = some .done := by
  unfold runToEnd at h ⊢
  have hc3 := step_crashed zero work _ i h
  have hc2 := step_crashed zero work _ i hc3
  have hc1 := step_crashed zero work _ i hc2
  have hget : st.phases[i]? = some st.phases[i] := List.getElem?_eq_getElem hi
  cases hph : st.phases[i] with
  | ready =>
    rw [hph] at hget
    obtain ⟨r, h1⟩ := step_at_ready zero work st i hget hc1
    obtain ⟨seen, h2⟩ := step_at_computed zero work _ i r h1 hc1
    obtain ⟨a, slot, h3⟩ := step_at_loaded zero work _ i seen r h2 hc2
    exact step_at_stored zero work _ i a slot r h3 h
  | computed r =>
    rw [hph] at hget
    obtain ⟨seen, h1⟩ := step_at_computed zero work st i r hget (step_crashed zero work _ i hc1)
    obtain ⟨a, slot, h2⟩ := step_at_loaded zero work _ i seen r h1 hc1
    have h3 := step_at_stored zero work _ i a slot r h2 hc3
    exact step_done zero work _ i i h3
  | loaded seen r =>
    rw [hph] at hget
    obtain ⟨a, slot, h1⟩ := step_at_loaded zero work st i seen r hget
      (step_crashed zero work _ i hc1)
    have h2 := step_at_stored zero work _ i a slot r h1 hc2
    exact step_done zero work _ i i (step_done zero work _ i i h2)
  | stored a slot r =>
    rw [hph] at hget
    have h1 := step_at_stored zero work st i a slot r hget hc1
    exact step_done zero work _ i i (step_done zero work _ i i (step_done zero work _ i i h1))
  | done =>
    rw [hph] at hget
    exact step_done zero work _ i i (step_done zero work _ i i (step_done zero work _ i i
      (step_done zero work _ i i hget)))

theorem runToEnd_crashed {κ ρ : Type} (zero : ρ) (work : Nat → Except Panic (κ × ρ))
    (st : Pool κ ρ) (i : Nat) (h : (runToEnd zero work st i).crashed = none) :
    st.crashed = none :=
  step_crashed zero work _ i (step_crashed zero work _ i (step_crashed zero work _ i
    (step_crashed zero work _ i h)))

theorem runToEnd_length {κ ρ : Type} (zero : ρ) (work : Nat → Except Panic (κ × ρ))
    (st : Pool κ ρ) (i : Nat) : (runToEnd zero work st i).phases.length = st.phases.length := by
  unfold runToEnd
  simp only [step_length]

theorem runToEnd_keeps_done {κ ρ : Type} (zero : ρ) (work : Nat → Except Panic (κ × ρ))
    (st : Pool κ ρ) (i j : Nat) (h : st.phases[i]? = some .done) :
    (runToEnd zero work st j).phases[i]? = some .done :=
  step_done zero work _ i j (step_done zero work _ i j (step_done zero work _ i j
    (step_done zero work _ i j h)))

theorem foldl_runToEnd_crashed {κ ρ : Type} (zero : ρ) (work : Nat → Except Panic (κ × ρ))
    (l : List Nat) (st : Pool κ ρ) (h : (l.foldl (runToEnd zero work) st).crashed = none) :
    st.crashed = none := by
  induction l generalizing st with
  | nil => exact h
  | cons a l ih =>
    rw [List.foldl_cons] at h
    exact runToEnd_crashed zero work _ a (ih _ h)

theorem finish_all_done {κ ρ : Type} (zero : ρ) (work : Nat → Except Panic (κ × ρ))
    (l : List Nat) :
    ∀ st : Pool κ ρ, (l.foldl (runToEnd zero work) st).crashed = none →
      (∀ i : Nat, st.phases[i]? = some Phase.done →
        (l.foldl (runToEnd zero work) st).phases[i]? = some Phase.done) ∧
      ∀ i : Nat, i ∈ l → i < st.phases.length →
        (l.foldl (runToEnd zero work) st).phases[i]? = some Phase.done := by
  induction l with
  | nil =>
    intro st _
    exact ⟨fun i h => h, fun i hi => by simp at hi⟩
  | cons j l ih =>
    intro st hc
    simp only [List.foldl_cons] at hc ⊢
    obtain ⟨hkeep, hall⟩ := ih _ hc
    have hcj := foldl_runToEnd_crashed zero work l _ hc
    refine ⟨?_, ?_⟩
    · intro i hi
      exact hkeep i (runToEnd_keeps_done zero work _ i j hi)
    · intro i hi hlt
      rcases List.mem_cons.mp hi with rfl | hi
      · exact hkeep _ (runToEnd_done zero work st _ hlt hcj)
      · exact hall i hi (by rw [runToEnd_length]; exact hlt)

theorem foldl_step_started {κ ρ : Type} (zero : ρ) (work : Nat → Except Panic (κ × ρ))
    (sched : List Nat) (st : Pool κ ρ) (h : st.Started work) :
    (sched.foldl (step zero work) st).Started work := by
  induction sched generalizing st with
  | nil => exact h
  | cons i sched ih => exact ih _ (step_started zero work st i h)

theorem foldl_step_length {κ ρ : Type} (zero : ρ) (work : Nat → Except Panic (κ × ρ))
    (sched : List Nat) (st : Pool κ ρ) :
    (sched.foldl (step zero work) st).phases.length = st.phases.length := by
  induction sched generalizing st with
  | nil => rfl
  | cons i sched ih => rw [List.foldl_cons, ih, step_length]

theorem finish_started {κ ρ : Type} (zero : ρ) (work : Nat → Except Panic (κ × ρ)) (n : Nat)
    (st : Pool κ ρ) (h : st.Started work) : (finish zero work n st).Started work := by
  unfold finish
  generalize List.range n = l
  induction l generalizing st with
  | nil => exact h
  | cons i l ih =>
    exact ih _ (step_started zero work _ i (step_started zero work _ i
      (step_started zero work _ i (step_started zero work st i h))))

/-- When the run of `n` goroutines ends without a panic, every goroutine got a
result from `work`, and its call is among the calls, under every schedule. -/
theorem runPool_complete {κ ρ : Type} (zero : ρ) (work : Nat → Except Panic (κ × ρ)) (n : Nat)
    (sched : List Nat) (h : (runPool zero work n sched).crashed = none) (i : Nat) (hi : i < n) :
    ∃ k r, work i = .ok (k, r) ∧ k ∈ (runPool zero work n sched).calls := by
  have hstarted : (runPool zero work n sched).Started work := by
    unfold runPool
    apply finish_started
    apply foldl_step_started
    intro j ph hj hne
    simp only [List.getElem?_replicate] at hj
    split at hj
    · simp only [Option.some.injEq] at hj
      exact absurd hj.symm hne
    · simp at hj
  have hdone : (runPool zero work n sched).phases[i]? = some .done := by
    unfold runPool finish at h ⊢
    refine (finish_all_done zero work (List.range n) _ h).2 i (List.mem_range.mpr hi) ?_
    rw [foldl_step_length]
    simpa using hi
  exact hstarted i .done hdone (by simp)

/-- When `DirConv` returns, the converter has been called for every matched
file, with the source path `Dir + "/" + val` and the target path computed from
it, under every schedule. -/
theorem DirConv_calls_complete (lower : Nat → Nat)
    (convert : GoString → GoString → Option GoError) (cli : Cli) (fs : Node) (sched : List Nat)
    (calls : List (GoString × GoString)) (results : List Result) (files : List GoString)
    (h : DirConv lower convert cli fs sched = ⟨calls, .returned results⟩)
    (hfiles : traverseImageFiles lower cli fs = .ok (files, none)) (val : GoString)
    (hval : val ∈ files) : (oldFileName cli val, newFileName cli val) ∈ calls := by
  rcases DirConv_cases lower convert cli fs sched with ⟨_, hne⟩ | ⟨files1, hdir, hfiles1⟩
  · exact absurd (by rw [h]) (hne results)
  · rw [hfiles] at hfiles1
    simp only [Except.ok.injEq, Prod.mk.injEq, and_true] at hfiles1
    subst hfiles1
    rw [DirConv_eq_of_files lower convert cli fs sched files hdir hfiles] at h
    have hcr : (goroutines convert cli files sched).crashed = none := by
      cases hc : (goroutines convert cli files sched).crashed with
      | none => rfl
      | some p => rw [hc] at h; simp at h
    simp only [Run.mk.injEq] at h
    obtain ⟨i, hi, rfl⟩ := List.getElem_of_mem hval
    obtain ⟨k, r, hw, hk⟩ := runPool_complete _ _ files.length sched hcr i hi
    rw [← h.1]
    rw [List.getD_eq_getElem _ _ hi] at hw
    obtain ⟨hk1, _, _⟩ := worker_ok hw
    rw [← hk1]
    exact hk

/-! ## The only panic of a goroutine is the panic of the slice expression -/

theorem step_sane {κ ρ : Type} (zero : ρ) (work : Nat → Except Panic (κ × ρ)) (st : Pool κ ρ)
    (i : Nat) (h : st.Sane work) : (step zero work st i).Sane work := by
  obtain ⟨hres, hph, hcr⟩ := h
  have hset : ∀ ph : Phase ρ, ph.Sane → ∀ q ∈ st.phases.set i ph, q.Sane := by
    intro ph hp q hq
    rcases List.mem_or_eq_of_mem_set hq with hq | hq
    · exact hph q hq
    · rw [hq]; exact hp
  unfold step
  split
  · exact ⟨hres, hph, hcr⟩
  · rename_i hc
    have hnone : st.crashed = none := by simpa using hc
    have hcr1 : ∀ (l : List (Phase ρ)) (p : Panic), st.crashed = some p →
        ∃ i, i < l.length ∧ work i = .error p := by
      intro l p hp
      rw [hnone] at hp
      simp at hp
    split
    · exact ⟨hres, hph, hcr⟩
    · rename_i hget
      have hi : i < st.phases.length := (List.get?_eq_some.mp hget).1
      split
      · rename_i p hw
        refine ⟨hres, hph, ?_⟩
        intro q hq
        simp only [Option.some.injEq] at hq
        subst hq
        exact ⟨i, hi, hw⟩
      · exact ⟨hres, hset _ trivial, hcr1 _⟩
    · exact ⟨hres, hset _ hres, hcr1 _⟩
    · rename_i seen r hget
      have hseen : seen.Sane := hph _ (List.get?_mem hget)
      split
      · rename_i hle
        have hptr : seen.ptr ≠ none := by
          intro hn
          have := hseen hn
          omega
        exact ⟨fun hn => absurd hn hptr, hset _ hptr, hcr1 _⟩
      · exact ⟨fun hn => by simp at hn, hset _ (by simp [Phase.Sane]), hcr1 _⟩
    · rename_i slot r hget
      exact absurd rfl (hph _ (List.get?_mem hget))
    · exact ⟨hres, hset _ trivial, hcr1 _⟩
    · exact ⟨hres, hph, hcr⟩

theorem foldl_step_sane {κ ρ : Type} (zero : ρ) (work : Nat → Except Panic (κ × ρ))
    (sched : List Nat) (st : Pool κ ρ) (h : st.Sane work) :
    (sched.foldl (step zero work) st).Sane work := by
  induction sched generalizing st with
  | nil => exact h
  | cons i sched ih => exact ih _ (step_sane zero work st i h)

theorem finish_sane {κ ρ : Type} (zero : ρ) (work : Nat → Except Panic (κ × ρ)) (n : Nat)
    (st : Pool κ ρ) (h : st.Sane work) : (finish zero work n st).Sane work := by
  unfold finish
  generalize List.range n = l
  induction l generalizing st with
  | nil => exact h
  | cons i l ih =>
    exact ih _ (step_sane zero work _ i (step_sane zero work _ i
      (step_sane zero work _ i (step_sane zero work st i h))))

/-- A panic that ends the run of `n` goroutines is the panic of the body of one
of them; the write of an element never goes through a nil pointer. -/
theorem runPool_panic {κ ρ : Type} (zero : ρ) (work : Nat → Except Panic (κ × ρ)) (n : Nat)
    (sched : List Nat) (p : Panic) (h : (runPool zero work n sched).crashed = some p) :
    ∃ i, i < n ∧ work i = .error p := by
  have hsane : (runPool zero work n sched).Sane work := by
    unfold runPool
    apply finish_sane
    apply foldl_step_sane
    refine ⟨fun _ => rfl, ?_, by simp⟩
    intro ph hmem
    rw [List.eq_of_mem_replicate hmem]
    trivial
  obtain ⟨i, hi, hw⟩ := hsane.2.2 p h
  have hlen : (runPool zero work n sched).phases.length = n := (runPool_sound zero work n sched).1
  exact ⟨i, by omega, hw⟩

/-- When `DirConv` panics, either the function passed to `filepath.Walk` met an
entry without file information, or the slice expression of a goroutine was out
of range for one of the matched files. -/
theorem DirConv_panicked (lower : Nat → Nat) (convert : GoString → GoString → Option GoError)
    (cli : Cli) (fs : Node) (sched : List Nat) (p : Panic)
    (h : (DirConv lower convert cli fs sched).outcome = .panicked p) :
    (p = .nilDereference ∧ traverseImageFiles lower cli fs = .error .nilDereference) ∨
      (p = .sliceBounds ∧ ∃ files val, traverseImageFiles lower cli fs = .ok (files, none) ∧
        val ∈ files ∧ (oldFileName cli val).length < cli.SrcExt.length) := by
  by_cases hdir : cli.Dir = []
  · simp [DirConv, hdir] at h
  · cases hfiles : traverseImageFiles lower cli fs with
    | error q =>
      have hq : q = .nilDereference := by
        rw [traverseImageFiles_eq] at hfiles
        split_ifs at hfiles
        simp only [Except.error.injEq] at hfiles
        exact hfiles.symm
      subst hq
      left
      simp only [DirConv, if_neg hdir, hfiles, Outcome.panicked.injEq] at h
      exact ⟨h.symm, rfl⟩
    | ok r =>
      obtain ⟨files, err⟩ := r
      have herr := (traverseImageFiles_ok hfiles).2
      subst herr
      right
      rw [DirConv_eq_of_files lower convert cli fs sched files hdir hfiles] at h
      cases hc : (goroutines convert cli files sched).crashed with
      | none => rw [hc] at h; simp at h
      | some q =>
        rw [hc] at h
        simp only [Outcome.panicked.injEq] at h
        subst h
        obtain ⟨i, hi, hw⟩ := runPool_panic _ _ _ sched q hc
        simp only [worker] at hw
        split at hw
        · simp at hw
        · rename_i hlt
          simp only [Except.error.injEq] at hw
          refine ⟨hw.symm, files, files.getD i [], rfl, ?_, by omega⟩
          rw [List.getD_eq_getElem _ _ hi]
          exact List.getElem_mem hi

/-! ## Runs without a race on a directory tree -/

theorem map_getD_range (l : List GoString) :
    (List.range l.length).map (fun i => l.getD i []) = l := by
  apply List.ext_getElem
  · simp
  · intro i h1 h2
    simp only [List.getElem_map, List.getElem_range]
    exact List.getD_eq_getElem _ _ h2

/-- When the goroutines run one after the other on a directory tree and every
slice expression is in range, `DirConv` returns one result per matched file:
the relative paths of the results are the matched files in traversal order and
the indices are `0, 1, ..., n-1`. -/
theorem DirConv_serial_tree (lower : Nat → Nat) (convert : GoString → GoString → Option GoError)
    (cli : Cli) (fs : Node) (hdir : cli.Dir ≠ []) (hwf : wellFormed fs = true)
    (hrange : ∀ val ∈ specMatchedTree lower cli fs,
      cli.SrcExt.length ≤ (oldFileName cli val).length) :
    ∃ results, (DirConv lower convert cli fs []).outcome = .returned results ∧
      results.length = (specMatchedTree lower cli fs).length ∧
      results.map (fun r => r.RelPath) = specMatchedTree lower cli fs ∧
      results.map (fun r => r.Index) = List.range (specMatchedTree lower cli fs).length := by
  have hfiles := traverseImageFiles_tree lower cli fs hwf
  rw [DirConv_serial lower convert cli fs _ hdir hfiles hrange]
  refine ⟨_, rfl, by simp, ?_, ?_⟩
  · rw [List.map_map]
    exact map_getD_range _
  · rw [List.map_map]
    exact List.map_id' _

end Dirconv
